import Mathlib

set_option maxHeartbeats 1000000

/-!
Verification of the `fuseoverlay` repository (a FUSE filesystem exposing a
git HEAD snapshot with an in-memory write overlay).

Shallow embedding conventions:
* A `PathBuf` is modelled as its list of components (`List String`); `join`
  is appending one component, `parent()` is `List.dropLast`, `file_name()` is
  `List.getLast?`.  All paths in the program are built by joining non-empty
  FUSE names onto the root's empty path, for which this model is exact.
* Byte buffers (`Vec<u8>`) are `List Nat`.
* `HashMap` / `DashMap` are association lists with distinct keys; insertion
  replaces, removal deletes the key.
* The git object store reachable from HEAD is an immutable tree value; the
  libgit2 calls that cannot fail on an in-memory tree (`find_commit`,
  `tree()`, `to_object`, `peel`) are modelled by total pattern matches.
-/

namespace FuseOverlay

/-- Path = component list of a relative `PathBuf`. -/
abbrev Path := List String

/-- Byte buffer (`Vec<u8>`). -/
abbrev Buf := List Nat

def ENOENT : Nat := 2
def EIO : Nat := 5
def EINVAL : Nat := 22

/-- Association-list lookup (models `HashMap::get` / `DashMap::get`). -/
def alookup {α β : Type} [DecidableEq α] (l : List (α × β)) (k : α) : Option β :=
  match l with
  | [] => none
  | e :: t => if e.1 = k then some e.2 else alookup t k

/-- Association-list key removal (models `HashMap::remove` / `DashMap::remove`). -/
def aerase {α β : Type} [DecidableEq α] (l : List (α × β)) (k : α) : List (α × β) :=
  match l with
  | [] => []
  | e :: t => if e.1 = k then aerase t k else e :: aerase t k

/-- Association-list insertion that replaces an existing key
(models `HashMap::insert` / `DashMap::insert`). -/
def ainsert {α β : Type} [DecidableEq α] (l : List (α × β)) (k : α) (v : β) :
    List (α × β) :=
  (k, v) :: aerase l k

/-- Remove the first occurrence of an element (models the
`position` + `remove` idiom on the `VecDeque` access order). -/
def lerase {α : Type} [DecidableEq α] (l : List α) (x : α) : List α :=
  match l with
  | [] => []
  | y :: t => if y = x then t else y :: lerase t x

/-- Keys of an association list. -/
def akeys {α β : Type} (l : List (α × β)) : List α := l.map Prod.fst

/-- Total byte count of the stored buffers. -/
def sumBytes (l : List (Path × Buf)) : Nat := (l.map (fun e => e.2.length)).sum

/-! ## LruCache (src/cache.rs)

State of `LruCacheInner`: `cache`, `access_order` (front = most recent),
`current_size`, `max_size`, `max_entries`. -/

structure LruCache where
  cache : List (Path × Buf)
  access_order : List Path
  current_size : Nat
  max_size : Nat
  max_entries : Nat
deriving DecidableEq

namespace LruCache

/-- `LruCache::new`. -/
def new (max_size max_entries : Nat) : LruCache :=
  { cache := [], access_order := [], current_size := 0,
    max_size := max_size, max_entries := max_entries }

/-- `LruCache::get`: clone the value; on a hit move the key to the front of
the access order (the `push_front` happens regardless of whether `position`
found the key, exactly as in the source). Returns the value and the updated
state. -/
def getOp (c : LruCache) (p : Path) : Option Buf × LruCache :=
  match alookup c.cache p with
  | some v => (some v, { c with access_order := p :: lerase c.access_order p })
  | none => (none, c)

/-- The value returned by `get`. -/
def get (c : LruCache) (p : Path) : Option Buf := (c.getOp p).1

/-- The state after `get`. -/
def getS (c : LruCache) (p : Path) : LruCache := (c.getOp p).2

/-- One pop of the eviction loop body: the popped path is removed from the
map, its length subtracted, and the back of the order queue dropped. -/
def popState (c : LruCache) (last : Path) (v : Buf) : LruCache :=
  { c with cache := aerase c.cache last,
           access_order := c.access_order.dropLast,
           current_size := c.current_size - v.length }

/-- The eviction loop of `LruCache::insert`:
`while (current_size + data_size > max_size || cache.len() >= max_entries)
&& !cache.is_empty()` pop the back of `access_order` and, when that path is
in the map, remove it and subtract its length.  Also returns the list of
evicted (removed-from-map) paths.  In the source the loop would spin forever
if the order queue emptied while the map did not; that situation is
unreachable from well-formed states and the model then returns the state
unchanged. -/
def evictLoopAux (fuel : Nat) (c : LruCache) (data_size : Nat) :
    LruCache × List Path :=
  match fuel with
  | 0 => (c, [])
  | fuel + 1 =>
    if (c.current_size + data_size > c.max_size ∨ c.cache.length ≥ c.max_entries)
        ∧ c.cache ≠ [] then
      match c.access_order.getLast? with
      | none => (c, [])
      | some last =>
        match alookup c.cache last with
        | none =>
          evictLoopAux fuel { c with access_order := c.access_order.dropLast }
            data_size
        | some v =>
          ((evictLoopAux fuel (popState c last v) data_size).1,
           last :: (evictLoopAux fuel (popState c last v) data_size).2)
    else (c, [])

/-- The eviction loop, entered with fuel equal to the length of the access
order: every iteration of the source loop pops one element of the order
queue, so the fuel is never exhausted before the loop's own exit condition
(if the queue emptied while the map did not — unreachable from well-formed
states — the source would spin forever; the model stops). -/
def evictLoop (c : LruCache) (data_size : Nat) : LruCache × List Path :=
  evictLoopAux c.access_order.length c data_size

/-- `LruCache::insert`, instrumented to also return the evicted paths.
Step 1 removes an existing entry for the key (from map, byte counter and
order); step 2 runs the eviction loop; step 3 inserts the new entry at the
front and adds its length. -/
def insertOp (c : LruCache) (p : Path) (d : Buf) : LruCache × List Path :=
  let data_size := d.length
  let c1 :=
    match alookup c.cache p with
    | some old =>
      { c with cache := aerase c.cache p,
               current_size := c.current_size - old.length,
               access_order := lerase c.access_order p }
    | none => c
  let r := evictLoop c1 data_size
  ({ r.1 with cache := (p, d) :: r.1.cache,
              access_order := p :: r.1.access_order,
              current_size := r.1.current_size + data_size }, r.2)

/-- `LruCache::insert` (state part). -/
def insert (c : LruCache) (p : Path) (d : Buf) : LruCache := (c.insertOp p d).1

/-- `LruCache::remove`: returns the old value and the updated state. -/
def removeOp (c : LruCache) (p : Path) : Option Buf × LruCache :=
  match alookup c.cache p with
  | some v =>
    (some v,
     { c with cache := aerase c.cache p,
              current_size := c.current_size - v.length,
              access_order := lerase c.access_order p })
  | none => (none, c)

/-- `LruCache::remove` (state part). -/
def removeS (c : LruCache) (p : Path) : LruCache := (c.removeOp p).2

/-- `LruCache::contains_key`. -/
def contains_key (c : LruCache) (p : Path) : Bool := (alookup c.cache p).isSome

end LruCache

inductive FType where
  | Directory
  | RegularFile
deriving DecidableEq

inductive GitMode where
  | Blob
  | BlobExecutable
  | Tree
  | Link
  | Commit
deriving DecidableEq

def ROOT_INO : Nat := 1

structure Node where
  ino : Nat
  kind : FType
  size : Nat
  path : Path
  git_mode : Option GitMode
deriving DecidableEq

/-- `i32_to_filemode` (src/types.rs). -/
def i32_to_filemode (mode : Nat) : GitMode :=
  if mode = 0o100755 then GitMode.BlobExecutable
  else if mode = 0o100644 then GitMode.Blob
  else if mode = 0o040000 then GitMode.Tree
  else if mode = 0o120000 then GitMode.Link
  else if mode = 0o160000 then GitMode.Commit
  else GitMode.Blob

/-- `git_mode_to_perm` (src/types.rs). -/
def git_mode_to_perm (mode : GitMode) : Nat :=
  match mode with
  | GitMode.Blob => 0o644
  | GitMode.BlobExecutable => 0o755
  | GitMode.Tree => 0o755
  | _ => 0o644

/-! ## Git object store (consumed interface)

The part of the object database reachable from the HEAD commit's root tree:
a tree is a list of entries (name, raw filemode bits, object); `other`
stands for object kinds that peel to neither tree nor blob (commit, tag). -/

inductive GitObj where
  | tree (entries : List (String × Nat × GitObj))
  | blob (content : Buf)
  | other

abbrev GitTree := List (String × Nat × GitObj)

/-! ## NodeCache (src/node_cache.rs) -/

structure NodeCache where
  nodes : List (Nat × Node)
  ino_cache : List (Path × Nat)
  path_to_ino : List (Path × Nat)
  next_ino : Nat
deriving DecidableEq

namespace NodeCache

/-- `NodeCache::new`: root node at inode 1 with empty path. -/
def new : NodeCache :=
  { nodes := [(ROOT_INO,
      { ino := ROOT_INO, kind := FType.Directory, size := 0, path := [],
        git_mode := some GitMode.Tree })],
    ino_cache := [],
    path_to_ino := [([], ROOT_INO)],
    next_ino := ROOT_INO + 1 }

/-- `NodeCache::alloc_ino`: cached inode if seen before, otherwise
`fetch_add` on the counter and record the association. -/
def alloc_ino (c : NodeCache) (p : Path) : Nat × NodeCache :=
  match alookup c.ino_cache p with
  | some i => (i, c)
  | none =>
    (c.next_ino,
     { c with next_ino := c.next_ino + 1,
              ino_cache := ainsert c.ino_cache p c.next_ino })

/-- `NodeCache::get_node`. -/
def get_node (c : NodeCache) (ino : Nat) : Option Node := alookup c.nodes ino

/-- `NodeCache::insert_node`. -/
def insert_node (c : NodeCache) (ino : Nat) (n : Node) : NodeCache :=
  { c with nodes := ainsert c.nodes ino n,
           path_to_ino := ainsert c.path_to_ino n.path ino }

/-- `NodeCache::remove_node`: removes `path_to_ino[path]` and the
corresponding `nodes` entry; `ino_cache` is untouched. -/
def remove_node (c : NodeCache) (p : Path) : Option Nat × NodeCache :=
  match alookup c.path_to_ino p with
  | some i =>
    (some i,
     { c with path_to_ino := aerase c.path_to_ino p,
              nodes := aerase c.nodes i })
  | none => (none, c)

/-- `NodeCache::get_ino_by_path`. -/
def get_ino_by_path (c : NodeCache) (p : Path) : Option Nat :=
  alookup c.path_to_ino p

end NodeCache

/-- The attribute fields of `node_to_attr` that are functions of the node
(timestamps, uid/gid, rdev, flags and blksize are environment-dependent and
omitted). -/
structure FileAttr where
  ino : Nat
  size : Nat
  blocks : Nat
  kind : FType
  perm : Nat
  nlink : Nat
deriving DecidableEq

/-- `NodeCache::node_to_attr` (src/node_cache.rs). -/
def node_to_attr (node : Node) : FileAttr :=
  { ino := node.ino,
    size := node.size,
    blocks := (node.size + 511) / 512,
    kind := node.kind,
    perm :=
      match node.git_mode with
      | some m => git_mode_to_perm m
      | none =>
        match node.kind with
        | FType.Directory => 0o755
        | _ => 0o644,
    nlink := 1 }

/-- The git-walk part of `NodeCache::lookup_path` (the `for comp in
path.iter()` loop): resolve each component in the current tree, record a
node for it, descend into trees, return immediately on a blob; a missing
component or an object kind that is neither tree nor blob yields `None`. -/
def lookupGitWalk (nc : NodeCache) (curr_tree : GitTree) (curr_path : Path)
    (comps : List String) (last : Option Node) : Option Node × NodeCache :=
  match comps with
  | [] => (last, nc)
  | cmp :: rest =>
    let curr_path' := curr_path ++ [cmp]
    match alookup curr_tree cmp with
    | none => (none, nc)
    | some (fm, obj) =>
      match obj with
      | GitObj.other => (none, nc)
      | GitObj.blob content =>
        let r := nc.alloc_ino curr_path'
        let node : Node :=
          { ino := r.1, kind := FType.RegularFile, size := content.length,
            path := curr_path', git_mode := some (i32_to_filemode fm) }
        let nc2 := { r.2 with
          nodes := ainsert r.2.nodes node.ino node,
          path_to_ino := ainsert r.2.path_to_ino curr_path' node.ino }
        (some node, nc2)
      | GitObj.tree t' =>
        let r := nc.alloc_ino curr_path'
        let node : Node :=
          { ino := r.1, kind := FType.Directory, size := 0,
            path := curr_path', git_mode := some (i32_to_filemode fm) }
        let nc2 := { r.2 with
          nodes := ainsert r.2.nodes node.ino node,
          path_to_ino := ainsert r.2.path_to_ino curr_path' node.ino }
        lookupGitWalk nc2 t' curr_path' rest (some node)

/-- `NodeCache::lookup_path`: cached inode first (returning whatever
`nodes` holds for it, even `none`), then the overlay (materializing a
RegularFile whose size is the buffer length), then the git walk.  The
overlay probe is `overlay.get`, so a hit promotes the key; the possibly
updated overlay is returned alongside. -/
def NodeCache.lookup_path (nc : NodeCache) (p : Path) (overlay : LruCache)
    (root : GitTree) : Option Node × NodeCache × LruCache :=
  match alookup nc.path_to_ino p with
  | some i => (alookup nc.nodes i, nc, overlay)
  | none =>
    match overlay.getOp p with
    | (some data, ov') =>
      let r := nc.alloc_ino p
      let node : Node :=
        { ino := r.1, kind := FType.RegularFile, size := data.length,
          path := p, git_mode := none }
      let nc2 := { r.2 with
        nodes := ainsert r.2.nodes node.ino node,
        path_to_ino := ainsert r.2.path_to_ino p node.ino }
      (some node, nc2, ov')
    | (none, ov') =>
      let r := lookupGitWalk nc root [] p none
      (r.1, r.2, ov')

/-! ## File read and write (src/file_ops.rs) -/

inductive ReadReply where
  | data (b : Buf)
  | error (e : Nat)
  | panic
deriving DecidableEq

inductive WriteReply where
  | written (n : Nat)
  | error (e : Nat)
deriving DecidableEq

/-- The reply slice `&data[off..end]` with `end = min(off + size, len)`:
a Rust range slice panics when its start exceeds its end, i.e. exactly when
`off > data.len()`. -/
def readSlice (data : Buf) (off size : Nat) : ReadReply :=
  let e := min (off + size) data.length
  if off ≤ e then ReadReply.data ((data.drop off).take (e - off))
  else ReadReply.panic

/-- The strict tree navigation of `read_file`: each parent component must
resolve and peel to a tree, otherwise ENOENT. -/
def walkTree (t : GitTree) (comps : List String) : Option GitTree :=
  match comps with
  | [] => some t
  | cmp :: rest =>
    match alookup t cmp with
    | some (_, GitObj.tree t') => walkTree t' rest
    | _ => none

/-- `read_file` (src/file_ops.rs).  Overlay first (`overlay.get`, which
promotes on a hit); otherwise walk the parent components of `node.path` at
HEAD (failure → ENOENT), take the file name (absent → EINVAL), peel the
entry to a blob (failure → ENOENT) and reply with the same slice.  The
`find_commit`/`tree()` EIO branches cannot fail against an in-memory tree.
Offsets are modelled as naturals (FUSE read offsets are non-negative).
The metrics counters are not modelled. -/
def read_file (node : Node) (offset size : Nat) (overlay : LruCache)
    (root : GitTree) : ReadReply × LruCache :=
  match overlay.getOp node.path with
  | (some data, ov') => (readSlice data offset size, ov')
  | (none, ov') =>
    match walkTree root node.path.dropLast with
    | none => (ReadReply.error ENOENT, ov')
    | some t =>
      match node.path.getLast? with
      | none => (ReadReply.error EINVAL, ov')
      | some name =>
        match alookup t name with
        | some (_, GitObj.blob data) => (readSlice data offset size, ov')
        | _ => (ReadReply.error ENOENT, ov')

/-- The lenient tree navigation of the copy-on-write seed in `write_file`:
a component that fails to resolve or peel is skipped and the walk continues
from the same tree. -/
def seedWalk (t : GitTree) (comps : List String) : GitTree :=
  match comps with
  | [] => t
  | cmp :: rest =>
    match alookup t cmp with
    | some (_, GitObj.tree t') => seedWalk t' rest
    | _ => seedWalk t rest

/-- `write_file` (src/file_ops.rs).  Look up the node (ENOENT if absent);
if the overlay does not hold the path and the offset is 0, try to seed the
overlay with the blob at the path in HEAD (failures silently ignored); take
the current buffer (`overlay.get`, promoting), zero-extend it to
`offset + |data|` if shorter, splice `data` in at `offset`, reinsert. -/
def write_file (ino : Nat) (offset : Nat) (data : Buf) (nc : NodeCache)
    (overlay : LruCache) (root : GitTree) : WriteReply × LruCache :=
  match nc.get_node ino with
  | none => (WriteReply.error ENOENT, overlay)
  | some file =>
    let path := file.path
    let overlay1 :=
      if ¬ overlay.contains_key path ∧ offset = 0 then
        let t := seedWalk root path.dropLast
        match path.getLast? with
        | some name =>
          match alookup t name with
          | some (_, GitObj.blob content) => overlay.insert path content
          | _ => overlay
        | none => overlay
      else overlay
    let r := overlay1.getOp path
    let content := r.1.getD []
    let content1 :=
      if content.length < offset + data.length then
        content ++ List.replicate (offset + data.length - content.length) 0
      else content
    let content2 :=
      content1.take offset ++ data ++ content1.drop (offset + data.length)
    (WriteReply.written data.length, r.2.insert path content2)

/-! ## Filesystem dispatch (src/gitfs.rs) -/

structure GitFs where
  root : GitTree
  node_cache : NodeCache
  overlay : LruCache

namespace GitFs

/-- `read` callback: node lookup, then `read_file`. -/
def read (fs : GitFs) (ino : Nat) (offset size : Nat) : ReadReply × GitFs :=
  match fs.node_cache.get_node ino with
  | none => (ReadReply.error ENOENT, fs)
  | some node =>
    let r := read_file node offset size fs.overlay fs.root
    (r.1, { fs with overlay := r.2 })

/-- `write` callback. -/
def write (fs : GitFs) (ino : Nat) (offset : Nat) (data : Buf) :
    WriteReply × GitFs :=
  let r := write_file ino offset data fs.node_cache fs.overlay fs.root
  (r.1, { fs with overlay := r.2 })

/-- `lookup` callback: parent node (ENOENT = `none` if absent), composed
child path, `lookup_path`.  The background prefetch scheduled for
directories runs on its own thread and is not part of the dispatch state
transition. -/
def lookup (fs : GitFs) (parent : Nat) (name : String) :
    Option Node × GitFs :=
  match fs.node_cache.get_node parent with
  | none => (none, fs)
  | some pn =>
    let r := fs.node_cache.lookup_path (pn.path ++ [name]) fs.overlay fs.root
    (r.1, { fs with node_cache := r.2.1, overlay := r.2.2 })

/-- `getattr` callback: the replied attribute, `none` standing for ENOENT. -/
def getattr (fs : GitFs) (ino : Nat) : Option FileAttr :=
  (fs.node_cache.get_node ino).map node_to_attr

/-- `mkdir` callback: compose path, allocate inode, insert an empty overlay
entry as a presence marker, insert a Directory node with mode Tree. -/
def mkdir (fs : GitFs) (parent : Nat) (name : String) :
    Option Node × GitFs :=
  match fs.node_cache.get_node parent with
  | none => (none, fs)
  | some pn =>
    let path := pn.path ++ [name]
    let r := fs.node_cache.alloc_ino path
    let ov1 := fs.overlay.insert path []
    let node : Node :=
      { ino := r.1, kind := FType.Directory, size := 0, path := path,
        git_mode := some GitMode.Tree }
    let nc2 := r.2.insert_node r.1 node
    (some node, { fs with node_cache := nc2, overlay := ov1 })

/-- `create` callback: like mkdir but a RegularFile with mode Blob. -/
def create (fs : GitFs) (parent : Nat) (name : String) :
    Option Node × GitFs :=
  match fs.node_cache.get_node parent with
  | none => (none, fs)
  | some pn =>
    let path := pn.path ++ [name]
    let r := fs.node_cache.alloc_ino path
    let ov1 := fs.overlay.insert path []
    let node : Node :=
      { ino := r.1, kind := FType.RegularFile, size := 0, path := path,
        git_mode := some GitMode.Blob }
    let nc2 := r.2.insert_node r.1 node
    (some node, { fs with node_cache := nc2, overlay := ov1 })

/-- `rmdir` callback: compose path, remove from the node cache only, and
reply OK whenever the parent inode is known (`true` = OK reply). -/
def rmdir (fs : GitFs) (parent : Nat) (name : String) : Bool × GitFs :=
  match fs.node_cache.get_node parent with
  | none => (false, fs)
  | some pn =>
    let path := pn.path ++ [name]
    (true, { fs with node_cache := (fs.node_cache.remove_node path).2 })

/-- `unlink` callback: compose path, remove from overlay and node cache. -/
def unlink (fs : GitFs) (parent : Nat) (name : String) : Bool × GitFs :=
  match fs.node_cache.get_node parent with
  | none => (false, fs)
  | some pn =>
    let path := pn.path ++ [name]
    (true, { fs with overlay := fs.overlay.removeS path,
                     node_cache := (fs.node_cache.remove_node path).2 })

/-- `rename` callback: both parents must be known (else ENOENT = `false`);
move the overlay value if present; remove the old path from the node cache
and, if an inode came back and its node still exists, reinsert it under the
new path (note `remove_node` has just deleted that node). -/
def rename (fs : GitFs) (parent : Nat) (name : String) (newparent : Nat)
    (newname : String) : Bool × GitFs :=
  match fs.node_cache.get_node parent with
  | none => (false, fs)
  | some pn =>
    match fs.node_cache.get_node newparent with
    | none => (false, fs)
    | some npn =>
      let old_path := pn.path ++ [name]
      let new_path := npn.path ++ [newname]
      let r := fs.overlay.removeOp old_path
      let ov1 :=
        match r.1 with
        | some data => r.2.insert new_path data
        | none => r.2
      let r2 := fs.node_cache.remove_node old_path
      let nc1 :=
        match r2.1 with
        | some ino =>
          match r2.2.get_node ino with
          | some node => r2.2.insert_node ino { node with path := new_path }
          | none => r2.2
        | none => r2.2
      (true, { fs with overlay := ov1, node_cache := nc1 })

/-- `Vec::resize(size, 0)`: truncate or zero-pad to the requested length. -/
def resizeBuf (b : Buf) (n : Nat) : Buf :=
  if b.length < n then b ++ List.replicate (n - b.length) 0 else b.take n

/-- `setattr` callback with a supplied size: resize the overlay buffer
(starting from empty when absent; the probe is `overlay.get`, promoting)
and reinsert; then reply with the current attributes from the unchanged
node cache. -/
def setattrSize (fs : GitFs) (ino : Nat) (size : Nat) :
    Option FileAttr × GitFs :=
  let fs1 :=
    match fs.node_cache.get_node ino with
    | some node =>
      let r := fs.overlay.getOp node.path
      { fs with overlay := r.2.insert node.path (resizeBuf (r.1.getD []) size) }
    | none => fs
  ((fs1.node_cache.get_node ino).map node_to_attr, fs1)

end GitFs

/-! ## Operation languages for the invariant claims -/

/-- A sequence of LRU inserts (claim C5). -/
def runInserts (c : LruCache) (ops : List (Path × Buf)) : LruCache :=
  ops.foldl (fun c e => c.insert e.1 e.2) c

/-- Insert / remove operations on the LRU (claim C6). -/
inductive LruOp where
  | ins (p : Path) (d : Buf)
  | rem (p : Path)

def runLruOp (c : LruCache) (op : LruOp) : LruCache :=
  match op with
  | LruOp.ins p d => c.insert p d
  | LruOp.rem p => (c.removeOp p).2

def runLruOps (c : LruCache) (ops : List LruOp) : LruCache :=
  ops.foldl runLruOp c

/-- NodeCache operations (claim C8). -/
inductive NCOp where
  | alloc (p : Path)
  | insertN (ino : Nat) (n : Node)
  | removeN (p : Path)

def runNCOp (c : NodeCache) (op : NCOp) : NodeCache :=
  match op with
  | NCOp.alloc p => (c.alloc_ino p).2
  | NCOp.insertN i n => c.insert_node i n
  | NCOp.removeN p => (c.remove_node p).2

def runNCOps (c : NodeCache) (ops : List NCOp) : NodeCache :=
  ops.foldl runNCOp c

/-- Well-formedness of an LRU state: the map keys are distinct, the order
queue has no duplicates, map keys and order entries coincide as sets, and
the byte counter equals the sum of the stored value lengths.
`LruCache::new` establishes it and every cache operation preserves it. -/
structure LruCache.WF (c : LruCache) : Prop where
  nodupKeys : (akeys c.cache).Nodup
  nodupOrder : c.access_order.Nodup
  keys_sub : ∀ q ∈ akeys c.cache, q ∈ c.access_order
  order_sub : ∀ q ∈ c.access_order, q ∈ akeys c.cache
  size_eq : c.current_size = sumBytes c.cache

/-! ## Lemmas about the association-list and order-queue primitives -/

section AssocLemmas

variable {α β : Type} [DecidableEq α]

@[simp]
theorem alookup_nil (k : α) : alookup ([] : List (α × β)) k = none := rfl

@[simp]
theorem alookup_cons (e : α × β) (l : List (α × β)) (k : α) :
    alookup (e :: l) k = if e.1 = k then some e.2 else alookup l k := rfl

@[simp]
theorem akeys_nil : akeys ([] : List (α × β)) = [] := rfl

@[simp]
theorem akeys_cons (e : α × β) (l : List (α × β)) :
    akeys (e :: l) = e.1 :: akeys l := rfl

theorem alookup_eq_none {l : List (α × β)} {k : α} :
    alookup l k = none ↔ k ∉ akeys l := by
  induction l with
  | nil => simp
  | cons e t ih =>
    by_cases h : e.1 = k
    · rw [alookup_cons, if_pos h, akeys_cons]
      simp [h]
    · rw [alookup_cons, if_neg h, akeys_cons, ih]
      simp only [List.mem_cons, not_or]
      constructor
      · exact fun hn => ⟨fun hh => h hh.symm, hn⟩
      · exact fun hn => hn.2

theorem alookup_isSome_iff {l : List (α × β)} {k : α} :
    (alookup l k).isSome ↔ k ∈ akeys l := by
  rw [Option.isSome_iff_ne_none]
  constructor
  · intro h
    by_contra hm
    exact h (alookup_eq_none.mpr hm)
  · intro h he
    exact (alookup_eq_none.mp he) h

@[simp]
theorem aerase_nil (k : α) : aerase ([] : List (α × β)) k = [] := rfl

theorem aerase_cons (e : α × β) (l : List (α × β)) (k : α) :
    aerase (e :: l) k =
      if e.1 = k then aerase l k else e :: aerase l k := rfl

theorem aerase_of_not_mem {l : List (α × β)} {k : α} (h : k ∉ akeys l) :
    aerase l k = l := by
  induction l with
  | nil => rfl
  | cons e t ih =>
    simp only [akeys, List.map_cons, List.mem_cons] at h
    push_neg at h
    rw [aerase_cons, if_neg (fun he => h.1 he.symm), ih h.2]

@[simp]
theorem alookup_aerase_self (l : List (α × β)) (k : α) :
    alookup (aerase l k) k = none := by
  induction l with
  | nil => rfl
  | cons e t ih =>
    rw [aerase_cons]
    by_cases h : e.1 = k
    · simpa [h] using ih
    · simp [h, ih]

theorem alookup_aerase_ne {q k : α} (l : List (α × β)) (h : q ≠ k) :
    alookup (aerase l k) q = alookup l q := by
  induction l with
  | nil => rfl
  | cons e t ih =>
    by_cases he : e.1 = k
    · have heq : ¬ e.1 = q := fun hh => h ((hh.symm.trans he))
      rw [aerase_cons, if_pos he, ih, alookup_cons, if_neg heq]
    · rw [aerase_cons, if_neg he, alookup_cons, alookup_cons, ih]

theorem mem_akeys_aerase {l : List (α × β)} {q k : α} :
    q ∈ akeys (aerase l k) ↔ q ∈ akeys l ∧ q ≠ k := by
  induction l with
  | nil => simp
  | cons e t ih =>
    by_cases h : e.1 = k
    · rw [aerase_cons, if_pos h, akeys_cons, ih, List.mem_cons]
      constructor
      · exact fun hh => ⟨Or.inr hh.1, hh.2⟩
      · rintro ⟨h1 | h1, h2⟩
        · exact absurd (h1.trans h) h2
        · exact ⟨h1, h2⟩
    · rw [aerase_cons, if_neg h, akeys_cons, akeys_cons, List.mem_cons,
        List.mem_cons, ih]
      constructor
      · rintro (h1 | ⟨h1, h2⟩)
        · exact ⟨Or.inl h1, fun hh => h (h1 ▸ hh)⟩
        · exact ⟨Or.inr h1, h2⟩
      · rintro ⟨h1 | h1, h2⟩
        · exact Or.inl h1
        · exact Or.inr ⟨h1, h2⟩

theorem nodup_akeys_aerase {l : List (α × β)} (k : α)
    (h : (akeys l).Nodup) : (akeys (aerase l k)).Nodup := by
  induction l with
  | nil => simp
  | cons e t ih =>
    simp only [akeys_cons, List.nodup_cons] at h
    by_cases he : e.1 = k
    · rw [aerase_cons, if_pos he]
      exact ih h.2
    · rw [aerase_cons, if_neg he, akeys_cons, List.nodup_cons]
      exact ⟨fun hm => h.1 (mem_akeys_aerase.mp hm).1, ih h.2⟩

theorem alookup_aerase_none {l : List (α × β)} {q : α} (k : α)
    (h : alookup l q = none) : alookup (aerase l k) q = none := by
  by_cases hqk : q = k
  · subst hqk; exact alookup_aerase_self l q
  · rw [alookup_aerase_ne l hqk]; exact h

end AssocLemmas

section SumLemmas

@[simp]
theorem sumBytes_nil : sumBytes [] = 0 := rfl

@[simp]
theorem sumBytes_cons (e : Path × Buf) (l : List (Path × Buf)) :
    sumBytes (e :: l) = e.2.length + sumBytes l := rfl

theorem sumBytes_aerase {l : List (Path × Buf)} {k : Path} {v : Buf}
    (hnd : (akeys l).Nodup) (h : alookup l k = some v) :
    sumBytes l = v.length + sumBytes (aerase l k) := by
  induction l with
  | nil => simp at h
  | cons e t ih =>
    simp only [akeys_cons, List.nodup_cons] at hnd
    by_cases he : e.1 = k
    · rw [alookup_cons, if_pos he] at h
      rw [aerase_cons, if_pos he, aerase_of_not_mem (he ▸ hnd.1),
        sumBytes_cons, ← Option.some_inj.mp h]
    · rw [alookup_cons, if_neg he] at h
      rw [aerase_cons, if_neg he, sumBytes_cons, sumBytes_cons, ih hnd.2 h]
      omega

theorem length_aerase {l : List (Path × Buf)} {k : Path} {v : Buf}
    (hnd : (akeys l).Nodup) (h : alookup l k = some v) :
    l.length = (aerase l k).length + 1 := by
  induction l with
  | nil => simp at h
  | cons e t ih =>
    simp only [akeys_cons, List.nodup_cons] at hnd
    by_cases he : e.1 = k
    · rw [aerase_cons, if_pos he, aerase_of_not_mem (he ▸ hnd.1)]
      simp
    · rw [alookup_cons, if_neg he] at h
      rw [aerase_cons, if_neg he, List.length_cons, List.length_cons,
        ih hnd.2 h]

end SumLemmas

section LeraseLemmas

variable {α : Type} [DecidableEq α]

@[simp]
theorem lerase_nil (x : α) : lerase ([] : List α) x = [] := rfl

theorem lerase_cons (y : α) (t : List α) (x : α) :
    lerase (y :: t) x = if y = x then t else y :: lerase t x := rfl

theorem lerase_of_not_mem {l : List α} {x : α} (h : x ∉ l) :
    lerase l x = l := by
  induction l with
  | nil => rfl
  | cons y t ih =>
    simp only [List.mem_cons] at h
    push_neg at h
    rw [lerase_cons, if_neg (fun he => h.1 he.symm), ih h.2]

theorem mem_of_mem_lerase {l : List α} {x q : α} (h : q ∈ lerase l x) :
    q ∈ l := by
  induction l with
  | nil => simp at h
  | cons y t ih =>
    rw [lerase_cons] at h
    by_cases he : y = x
    · rw [if_pos he] at h
      exact List.mem_cons_of_mem y h
    · rw [if_neg he, List.mem_cons] at h
      rcases h with h | h
      · exact h ▸ List.mem_cons_self y t
      · exact List.mem_cons_of_mem y (ih h)

theorem mem_lerase_of_nodup {l : List α} {x : α} (hnd : l.Nodup) (q : α) :
    q ∈ lerase l x ↔ q ∈ l ∧ q ≠ x := by
  induction l with
  | nil => simp
  | cons y t ih =>
    simp only [List.nodup_cons] at hnd
    rw [lerase_cons]
    by_cases he : y = x
    · subst he
      simp only [if_pos rfl, List.mem_cons]
      constructor
      · exact fun hq => ⟨Or.inr hq, fun hh => hnd.1 (hh ▸ hq)⟩
      · rintro ⟨h1 | h1, h2⟩
        · exact absurd h1 h2
        · exact h1
    · simp only [if_neg he, List.mem_cons, ih hnd.2]
      constructor
      · rintro (h1 | ⟨h1, h2⟩)
        · exact ⟨Or.inl h1, fun hh => he (h1 ▸ hh)⟩
        · exact ⟨Or.inr h1, h2⟩
      · rintro ⟨h1 | h1, h2⟩
        · exact Or.inl h1
        · exact Or.inr ⟨h1, h2⟩

theorem nodup_lerase {l : List α} (x : α) (hnd : l.Nodup) :
    (lerase l x).Nodup := by
  induction l with
  | nil => simp
  | cons y t ih =>
    simp only [List.nodup_cons] at hnd
    rw [lerase_cons]
    by_cases he : y = x
    · simp only [if_pos he]; exact hnd.2
    · simp only [if_neg he, List.nodup_cons]
      exact ⟨fun hm => hnd.1 (mem_of_mem_lerase hm), ih hnd.2⟩

theorem length_lerase {l : List α} {x : α} (h : x ∈ l) :
    l.length = (lerase l x).length + 1 := by
  induction l with
  | nil => simp at h
  | cons y t ih =>
    rw [lerase_cons]
    by_cases he : y = x
    · simp [he]
    · rw [List.mem_cons] at h
      rcases h with h | h
      · exact absurd h.symm he
      · simp only [List.length_cons, if_neg he, ih h]

/-- A list whose `getLast?` is `some a` decomposes as `dropLast ++ [a]`. -/
theorem getLast?_decomp {l : List α} {a : α} (h : l.getLast? = some a) :
    l = l.dropLast ++ [a] := by
  induction l with
  | nil => simp at h
  | cons y t ih =>
    cases t with
    | nil => simp_all [List.getLast?]
    | cons z t2 =>
      rw [List.getLast?_cons_cons] at h
      rw [List.dropLast_cons₂, List.cons_append]
      rw [← ih h]

theorem two_le_length_of_mem_ne {l : List α} {a b : α} (ha : a ∈ l)
    (hb : b ∈ l) (hab : a ≠ b) : 2 ≤ l.length := by
  match l with
  | [] => simp at ha
  | [x] =>
    simp only [List.mem_singleton] at ha hb
    exact absurd (ha.trans hb.symm) hab
  | x :: y :: t => simp [List.length_cons]

end LeraseLemmas

/-! ## Well-formedness of LRU states and the eviction loop -/

namespace LruCache

theorem WF_new (ms me : Nat) : WF (new ms me) := by
  constructor <;> simp [new]

theorem cache_nil_of_order_nil {c : LruCache} (h : WF c)
    (ho : c.access_order = []) : c.cache = [] := by
  cases hc : c.cache with
  | nil => rfl
  | cons e t =>
    have hm : e.1 ∈ akeys c.cache := by
      rw [hc]; exact List.mem_cons_self _ _
    have hmo := h.keys_sub _ hm
    rw [ho] at hmo
    simp at hmo

theorem WF_getS {c : LruCache} (p : Path) (h : WF c) : WF (c.getOp p).2 := by
  cases hl : alookup c.cache p with
  | none => simpa [getOp, hl] using h
  | some v =>
    have hpk : p ∈ akeys c.cache := by
      have hs : (alookup c.cache p).isSome := by rw [hl]; rfl
      exact alookup_isSome_iff.mp hs
    simp only [getOp, hl]
    constructor
    · exact h.nodupKeys
    · rw [List.nodup_cons]
      refine ⟨fun hm => ?_, nodup_lerase _ h.nodupOrder⟩
      exact ((mem_lerase_of_nodup h.nodupOrder p).mp hm).2 rfl
    · intro q hq
      by_cases hqp : q = p
      · exact hqp ▸ List.mem_cons_self _ _
      · exact List.mem_cons_of_mem _
          ((mem_lerase_of_nodup h.nodupOrder q).mpr ⟨h.keys_sub q hq, hqp⟩)
    · intro q hq
      rcases List.mem_cons.mp hq with hq | hq
      · exact hq ▸ hpk
      · exact h.order_sub q (mem_of_mem_lerase hq)
    · exact h.size_eq

theorem WF_popState {c : LruCache} {last : Path} {v : Buf} (h : WF c)
    (hlast : c.access_order.getLast? = some last)
    (hv : alookup c.cache last = some v) : WF (popState c last v) := by
  have hdec := getLast?_decomp hlast
  have hnd : c.access_order.dropLast.Nodup ∧ last ∉ c.access_order.dropLast := by
    have hno := h.nodupOrder
    rw [hdec, List.nodup_append] at hno
    exact ⟨hno.1, fun hm => hno.2.2 hm (List.mem_singleton_self last)⟩
  have hmem : ∀ q, q ∈ c.access_order.dropLast ↔
      q ∈ c.access_order ∧ q ≠ last := by
    intro q
    constructor
    · intro hq
      exact ⟨List.dropLast_subset _ hq, fun he => hnd.2 (he ▸ hq)⟩
    · rintro ⟨hq, hne⟩
      rw [hdec, List.mem_append] at hq
      rcases hq with hq | hq
      · exact hq
      · exact absurd (List.mem_singleton.mp hq) hne
  constructor
  · exact nodup_akeys_aerase _ h.nodupKeys
  · exact hnd.1
  · intro q hq
    obtain ⟨hq1, hq2⟩ := mem_akeys_aerase.mp hq
    exact (hmem q).mpr ⟨h.keys_sub q hq1, hq2⟩
  · intro q hq
    obtain ⟨hq1, hq2⟩ := (hmem q).mp hq
    exact mem_akeys_aerase.mpr ⟨h.order_sub q hq1, hq2⟩
  · have hsum := sumBytes_aerase h.nodupKeys hv
    have h2 := h.size_eq
    simp only [popState]
    omega

theorem evictLoopAux_spec (ds : Nat) :
    ∀ (fuel : Nat) (c : LruCache), WF c → c.access_order.length ≤ fuel →
      WF (evictLoopAux fuel c ds).1 ∧
      ((evictLoopAux fuel c ds).1.cache = [] ∨
        ((evictLoopAux fuel c ds).1.current_size + ds ≤ c.max_size ∧
         (evictLoopAux fuel c ds).1.cache.length < c.max_entries)) := by
  intro fuel
  induction fuel with
  | zero =>
    intro c hwf hfuel
    refine ⟨hwf, Or.inl ?_⟩
    exact cache_nil_of_order_nil hwf
      (List.length_eq_zero.mp (Nat.le_zero.mp hfuel))
  | succ n ih =>
    intro c hwf hfuel
    by_cases hcond :
        (c.current_size + ds > c.max_size ∨ c.cache.length ≥ c.max_entries)
          ∧ c.cache ≠ []
    · have horder : c.access_order ≠ [] := by
        intro ho
        exact hcond.2 (cache_nil_of_order_nil hwf ho)
      obtain ⟨last, hlast⟩ := Option.isSome_iff_exists.mp
        (List.getLast?_isSome.mpr horder)
      have hlmem : last ∈ c.access_order := List.mem_of_mem_getLast? hlast
      have hvs : (alookup c.cache last).isSome :=
        alookup_isSome_iff.mpr (hwf.order_sub last hlmem)
      obtain ⟨v, hv⟩ := Option.isSome_iff_exists.mp hvs
      have hwf2 : WF (popState c last v) := WF_popState hwf hlast hv
      have hfuel2 : (popState c last v).access_order.length ≤ n := by
        simp only [popState, List.length_dropLast]
        have hpos : 0 < c.access_order.length := List.length_pos.mpr horder
        omega
      have hres := ih (popState c last v) hwf2 hfuel2
      simp only [evictLoopAux, if_pos hcond, hlast, hv]
      exact ⟨hres.1, hres.2⟩
    · simp only [evictLoopAux, if_neg hcond]
      refine ⟨hwf, ?_⟩
      by_cases hc : c.cache = []
      · exact Or.inl hc
      · have hnab :
            ¬(c.current_size + ds > c.max_size ∨
              c.cache.length ≥ c.max_entries) :=
          fun hab => hcond ⟨hab, hc⟩
        push_neg at hnab
        exact Or.inr ⟨hnab.1, hnab.2⟩

theorem evictLoopAux_max (ds : Nat) :
    ∀ (fuel : Nat) (c : LruCache),
      (evictLoopAux fuel c ds).1.max_size = c.max_size ∧
      (evictLoopAux fuel c ds).1.max_entries = c.max_entries := by
  intro fuel
  induction fuel with
  | zero => exact fun c => ⟨rfl, rfl⟩
  | succ n ih =>
    intro c
    by_cases hcond :
        (c.current_size + ds > c.max_size ∨ c.cache.length ≥ c.max_entries)
          ∧ c.cache ≠ []
    · cases hlast : c.access_order.getLast? with
      | none => simp [evictLoopAux, if_pos hcond, hlast]
      | some last =>
        cases hv : alookup c.cache last with
        | none =>
          simp only [evictLoopAux, if_pos hcond, hlast, hv]
          exact ih _
        | some v =>
          simp only [evictLoopAux, if_pos hcond, hlast, hv]
          exact ih _
    · simp [evictLoopAux, if_neg hcond]

theorem evictLoopAux_alookup_not_evicted (ds : Nat) (q : Path) :
    ∀ (fuel : Nat) (c : LruCache), q ∉ (evictLoopAux fuel c ds).2 →
      alookup (evictLoopAux fuel c ds).1.cache q = alookup c.cache q := by
  intro fuel
  induction fuel with
  | zero => exact fun c _ => rfl
  | succ n ih =>
    intro c hq
    by_cases hcond :
        (c.current_size + ds > c.max_size ∨ c.cache.length ≥ c.max_entries)
          ∧ c.cache ≠ []
    · cases hlast : c.access_order.getLast? with
      | none => simp [evictLoopAux, if_pos hcond, hlast]
      | some last =>
        cases hv : alookup c.cache last with
        | none =>
          simp only [evictLoopAux, if_pos hcond, hlast, hv] at hq ⊢
          exact ih _ hq
        | some v =>
          simp only [evictLoopAux, if_pos hcond, hlast, hv] at hq ⊢
          have hql : q ≠ last := fun he => hq (he ▸ List.mem_cons_self _ _)
          have hq2 : q ∉ (evictLoopAux n (popState c last v) ds).2 :=
            fun hm => hq (List.mem_cons_of_mem _ hm)
          rw [ih _ hq2]
          simp only [popState]
          exact alookup_aerase_ne _ hql
    · simp [evictLoopAux, if_neg hcond]

theorem evictLoopAux_alookup_none (ds : Nat) (q : Path) :
    ∀ (fuel : Nat) (c : LruCache), alookup c.cache q = none →
      alookup (evictLoopAux fuel c ds).1.cache q = none := by
  intro fuel
  induction fuel with
  | zero => exact fun c h => h
  | succ n ih =>
    intro c h
    by_cases hcond :
        (c.current_size + ds > c.max_size ∨ c.cache.length ≥ c.max_entries)
          ∧ c.cache ≠ []
    · cases hlast : c.access_order.getLast? with
      | none => simpa [evictLoopAux, if_pos hcond, hlast] using h
      | some last =>
        cases hv : alookup c.cache last with
        | none =>
          simp only [evictLoopAux, if_pos hcond, hlast, hv]
          exact ih _ h
        | some v =>
          simp only [evictLoopAux, if_pos hcond, hlast, hv]
          exact ih _ (alookup_aerase_none last h)
    · simpa [evictLoopAux, if_neg hcond] using h

theorem evictLoopAux_order_sub (ds : Nat) :
    ∀ (fuel : Nat) (c : LruCache) (q : Path),
      q ∈ (evictLoopAux fuel c ds).1.access_order → q ∈ c.access_order := by
  intro fuel
  induction fuel with
  | zero => exact fun c q hq => hq
  | succ n ih =>
    intro c q hq
    by_cases hcond :
        (c.current_size + ds > c.max_size ∨ c.cache.length ≥ c.max_entries)
          ∧ c.cache ≠ []
    · cases hlast : c.access_order.getLast? with
      | none => simpa [evictLoopAux, if_pos hcond, hlast] using hq
      | some last =>
        cases hv : alookup c.cache last with
        | none =>
          simp only [evictLoopAux, if_pos hcond, hlast, hv] at hq
          exact List.dropLast_subset _ (ih _ q hq)
        | some v =>
          simp only [evictLoopAux, if_pos hcond, hlast, hv] at hq
          exact List.dropLast_subset _ (ih _ q hq)
    · simpa [evictLoopAux, if_neg hcond] using hq

theorem evictLoopAux_head_not_evicted (ds : Nat) (k : Path) :
    ∀ (fuel : Nat) (c : LruCache), WF c →
      c.access_order.head? = some k →
      (evictLoopAux fuel c ds).2.length < c.access_order.length →
      k ∉ (evictLoopAux fuel c ds).2 := by
  intro fuel
  induction fuel with
  | zero => intro c _ _ _; simp [evictLoopAux]
  | succ n ih =>
    intro c hwf hhead hlt
    by_cases hcond :
        (c.current_size + ds > c.max_size ∨ c.cache.length ≥ c.max_entries)
          ∧ c.cache ≠ []
    · have horder : c.access_order ≠ [] := by
        intro ho; rw [ho] at hhead; simp at hhead
      obtain ⟨last, hlast⟩ := Option.isSome_iff_exists.mp
        (List.getLast?_isSome.mpr horder)
      cases hv : alookup c.cache last with
      | none =>
        exfalso
        have hlmem : last ∈ c.access_order := List.mem_of_mem_getLast? hlast
        have hvs : (alookup c.cache last).isSome :=
          alookup_isSome_iff.mpr (hwf.order_sub last hlmem)
        rw [hv] at hvs
        simp at hvs
      | some v =>
        simp only [evictLoopAux, if_pos hcond, hlast, hv] at hlt ⊢
        have hdec := getLast?_decomp hlast
        by_cases hdl : c.access_order.dropLast = []
        · exfalso
          have hone : c.access_order.length = 1 := by
            rw [hdec, hdl]; rfl
          rw [hone, List.length_cons] at hlt
          omega
        · have hhead2 : c.access_order.dropLast.head? = some k := by
            rw [hdec, List.head?_append_of_ne_nil _ hdl] at hhead
            exact hhead
          have hkmem : k ∈ c.access_order.dropLast :=
            List.mem_of_mem_head? hhead2
          have hkl : k ≠ last := by
            intro he
            have hlnot : last ∉ c.access_order.dropLast := by
              have hnd := hwf.nodupOrder
              rw [hdec, List.nodup_append] at hnd
              exact fun hm => hnd.2.2 hm (List.mem_singleton_self last)
            exact hlnot (he ▸ hkmem)
          have hwf2 := WF_popState hwf hlast hv
          have hlt3 : (last :: (evictLoopAux n (popState c last v) ds).2).length
              < c.access_order.length := hlt
          have hlt2 : (evictLoopAux n (popState c last v) ds).2.length <
              (popState c last v).access_order.length := by
            rw [List.length_cons] at hlt3
            show _ < c.access_order.dropLast.length
            rw [List.length_dropLast]
            have hpos : 0 < c.access_order.length := List.length_pos.mpr horder
            omega
          have hrec := ih (popState c last v) hwf2 hhead2 hlt2
          intro hm
          rcases List.mem_cons.mp hm with hm | hm
          · exact hkl hm
          · exact hrec hm
    · simp [evictLoopAux, if_neg hcond]

theorem removeS_max (c : LruCache) (p : Path) :
    (c.removeOp p).2.max_size = c.max_size ∧
    (c.removeOp p).2.max_entries = c.max_entries := by
  unfold removeOp
  cases alookup c.cache p <;> exact ⟨rfl, rfl⟩

theorem alookup_removeS_self (c : LruCache) (p : Path) :
    alookup (c.removeOp p).2.cache p = none := by
  unfold removeOp
  cases hl : alookup c.cache p with
  | none => exact hl
  | some v => exact alookup_aerase_self _ _

theorem WF_removeS {c : LruCache} (p : Path) (h : WF c) :
    WF (c.removeOp p).2 := by
  unfold removeOp
  cases hl : alookup c.cache p with
  | none => exact h
  | some v =>
    constructor
    · exact nodup_akeys_aerase _ h.nodupKeys
    · exact nodup_lerase _ h.nodupOrder
    · intro q hq
      obtain ⟨hq1, hq2⟩ := mem_akeys_aerase.mp hq
      exact (mem_lerase_of_nodup h.nodupOrder q).mpr ⟨h.keys_sub q hq1, hq2⟩
    · intro q hq
      obtain ⟨hq1, hq2⟩ := (mem_lerase_of_nodup h.nodupOrder q).mp hq
      exact mem_akeys_aerase.mpr ⟨h.order_sub q hq1, hq2⟩
    · have hsum := sumBytes_aerase h.nodupKeys hl
      have h2 := h.size_eq
      show c.current_size - v.length = sumBytes (aerase c.cache p)
      omega

theorem not_mem_order_removeS {c : LruCache} (p : Path) (h : WF c) :
    p ∉ (c.removeOp p).2.access_order := by
  unfold removeOp
  cases hl : alookup c.cache p with
  | none =>
    intro hm
    exact (alookup_eq_none.mp hl) (h.order_sub p hm)
  | some v =>
    intro hm
    exact ((mem_lerase_of_nodup h.nodupOrder p).mp hm).2 rfl

/-- Step 1 of `insert` (removing an existing entry for the key) produces the
same state as `remove`; the rest of `insert` is the eviction loop followed
by the front insertion.  Stated componentwise. -/
theorem insert_cache (c : LruCache) (p : Path) (d : Buf) :
    (c.insert p d).cache =
      (p, d) :: (evictLoop (c.removeOp p).2 d.length).1.cache := by
  unfold insert insertOp removeOp
  cases alookup c.cache p <;> rfl

theorem insert_order (c : LruCache) (p : Path) (d : Buf) :
    (c.insert p d).access_order =
      p :: (evictLoop (c.removeOp p).2 d.length).1.access_order := by
  unfold insert insertOp removeOp
  cases alookup c.cache p <;> rfl

theorem insert_size (c : LruCache) (p : Path) (d : Buf) :
    (c.insert p d).current_size =
      (evictLoop (c.removeOp p).2 d.length).1.current_size + d.length := by
  unfold insert insertOp removeOp
  cases alookup c.cache p <;> rfl

theorem insert_evicted (c : LruCache) (p : Path) (d : Buf) :
    (c.insertOp p d).2 = (evictLoop (c.removeOp p).2 d.length).2 := by
  unfold insertOp removeOp
  cases alookup c.cache p <;> rfl

theorem insert_max_size (c : LruCache) (p : Path) (d : Buf) :
    (c.insert p d).max_size = c.max_size := by
  have hc : (c.insert p d).max_size
      = (evictLoop (c.removeOp p).2 d.length).1.max_size := by
    unfold insert insertOp removeOp
    cases alookup c.cache p <;> rfl
  rw [hc]
  unfold evictLoop
  rw [(evictLoopAux_max d.length _ _).1, (removeS_max c p).1]

theorem insert_max_entries (c : LruCache) (p : Path) (d : Buf) :
    (c.insert p d).max_entries = c.max_entries := by
  have hc : (c.insert p d).max_entries
      = (evictLoop (c.removeOp p).2 d.length).1.max_entries := by
    unfold insert insertOp removeOp
    cases alookup c.cache p <;> rfl
  rw [hc]
  unfold evictLoop
  rw [(evictLoopAux_max d.length _ _).2, (removeS_max c p).2]

theorem WF_insert {c : LruCache} (p : Path) (d : Buf) (h : WF c) :
    WF (c.insert p d) := by
  have h1 : WF (c.removeOp p).2 := WF_removeS p h
  have hp1 : alookup (c.removeOp p).2.cache p = none := alookup_removeS_self c p
  have hp2 : p ∉ (c.removeOp p).2.access_order := not_mem_order_removeS p h
  have hev := evictLoopAux_spec d.length (c.removeOp p).2.access_order.length
    (c.removeOp p).2 h1 (le_refl _)
  have hp3 : alookup (evictLoop (c.removeOp p).2 d.length).1.cache p = none :=
    evictLoopAux_alookup_none d.length p _ _ hp1
  have hp4 : p ∉ (evictLoop (c.removeOp p).2 d.length).1.access_order :=
    fun hm => hp2 (evictLoopAux_order_sub d.length _ _ p hm)
  constructor
  · rw [insert_cache, akeys_cons, List.nodup_cons]
    exact ⟨alookup_eq_none.mp hp3, hev.1.nodupKeys⟩
  · rw [insert_order, List.nodup_cons]
    exact ⟨hp4, hev.1.nodupOrder⟩
  · rw [insert_cache, insert_order]
    intro q hq
    rcases List.mem_cons.mp hq with hq | hq
    · exact hq ▸ List.mem_cons_self _ _
    · exact List.mem_cons_of_mem _ (hev.1.keys_sub q hq)
  · rw [insert_cache, insert_order]
    intro q hq
    rcases List.mem_cons.mp hq with hq | hq
    · exact hq ▸ List.mem_cons_self _ _
    · exact List.mem_cons_of_mem _ (hev.1.order_sub q hq)
  · rw [insert_cache, insert_size, sumBytes_cons]
    unfold evictLoop
    have hs := hev.1.size_eq
    have hpd : ((p, d) : Path × Buf).2.length = d.length := rfl
    omega

/-- The bound re-established by every `insert`: either the byte counter is
within `max_size`, or the cache holds exactly the one entry just inserted;
and (for `max_entries ≥ 1`) the entry count is within `max_entries`. -/
theorem insert_bound {c : LruCache} (p : Path) (d : Buf) (h : WF c)
    (hme : 1 ≤ c.max_entries) :
    ((c.insert p d).current_size ≤ c.max_size ∨
      akeys (c.insert p d).cache = [p]) ∧
    (c.insert p d).cache.length ≤ c.max_entries := by
  have h1 : WF (c.removeOp p).2 := WF_removeS p h
  have hev := evictLoopAux_spec d.length (c.removeOp p).2.access_order.length
    (c.removeOp p).2 h1 (le_refl _)
  rcases hev.2 with hnil | hexit
  · constructor
    · refine Or.inr ?_
      rw [insert_cache]
      unfold evictLoop
      rw [hnil]
      rfl
    · rw [insert_cache]
      unfold evictLoop
      rw [hnil]
      simpa using hme
  · constructor
    · refine Or.inl ?_
      rw [insert_size]
      calc (evictLoop (c.removeOp p).2 d.length).1.current_size + d.length
          ≤ (c.removeOp p).2.max_size := hexit.1
        _ = c.max_size := (removeS_max c p).1
    · rw [insert_cache, List.length_cons]
      unfold evictLoop
      have hlt := hexit.2
      have he := (removeS_max c p).2
      omega

theorem runInserts_WF (ops : List (Path × Buf)) :
    ∀ c : LruCache, WF c → WF (runInserts c ops) ∧
      (runInserts c ops).max_size = c.max_size ∧
      (runInserts c ops).max_entries = c.max_entries := by
  induction ops with
  | nil => exact fun c h => ⟨h, rfl, rfl⟩
  | cons e t ih =>
    intro c h
    have h1 := WF_insert e.1 e.2 h
    have h2 := ih (c.insert e.1 e.2) h1
    refine ⟨h2.1, ?_, ?_⟩
    · exact h2.2.1.trans (insert_max_size c e.1 e.2)
    · exact h2.2.2.trans (insert_max_entries c e.1 e.2)

theorem runLruOps_WF (ops : List LruOp) :
    ∀ c : LruCache, WF c → WF (runLruOps c ops) := by
  induction ops with
  | nil => exact fun c h => h
  | cons op t ih =>
    intro c h
    cases op with
    | ins p d => exact ih _ (WF_insert p d h)
    | rem p => exact ih _ (WF_removeS p h)

theorem removeS_of_none {c : LruCache} {p : Path}
    (h : alookup c.cache p = none) : (c.removeOp p).2 = c := by
  unfold removeOp
  rw [h]

theorem removeOp_some {c : LruCache} {p : Path} {v : Buf}
    (h : alookup c.cache p = some v) :
    c.removeOp p = (some v,
      { c with cache := aerase c.cache p,
               current_size := c.current_size - v.length,
               access_order := lerase c.access_order p }) := by
  unfold removeOp
  rw [h]

theorem getS_cache (c : LruCache) (p : Path) :
    (c.getOp p).2.cache = c.cache := by
  unfold getOp
  cases alookup c.cache p <;> rfl

theorem alookup_insert_self (c : LruCache) (p : Path) (d : Buf) :
    alookup (c.insert p d).cache p = some d := by
  rw [insert_cache, alookup_cons, if_pos rfl]

theorem getOp_insert_self (c : LruCache) (p : Path) (d : Buf) :
    (c.insert p d).getOp p =
      (some d, { c.insert p d with
        access_order := p :: lerase (c.insert p d).access_order p }) := by
  unfold getOp
  rw [alookup_insert_self]

theorem alookup_insert_none {c : LruCache} {p q : Path} (d : Buf)
    (hne : q ≠ p) (h : alookup c.cache q = none) :
    alookup (c.insert p d).cache q = none := by
  rw [insert_cache, alookup_cons, if_neg (fun he => hne he.symm)]
  unfold evictLoop
  refine evictLoopAux_alookup_none _ q _ _ ?_
  unfold removeOp
  cases hl : alookup c.cache p with
  | none => exact h
  | some v => exact alookup_aerase_none _ h

end LruCache

theorem alookup_ainsert {α β : Type} [DecidableEq α]
    (l : List (α × β)) (k : α) (v : β) (q : α) :
    alookup (ainsert l k v) q = if k = q then some v else alookup l q := by
  unfold ainsert
  rw [alookup_cons]
  by_cases h : k = q
  · rw [if_pos h, if_pos h]
  · rw [if_neg h, if_neg h, alookup_aerase_ne _ (fun he => h he.symm)]

theorem exists_ne_key_of_two_le {l : List (Path × Buf)}
    (hnd : (akeys l).Nodup) (hlen : 2 ≤ l.length) (k : Path) :
    ∃ q, q ∈ akeys l ∧ q ≠ k := by
  cases l with
  | nil => simp at hlen
  | cons e1 t1 =>
    cases t1 with
    | nil => simp at hlen
    | cons e2 t =>
      have hne : e1.1 ≠ e2.1 := by
        simp only [akeys_cons, List.nodup_cons, List.mem_cons] at hnd
        exact fun he => hnd.1 (Or.inl he)
      by_cases h1 : e1.1 = k
      · exact ⟨e2.1, List.mem_cons_of_mem _ (List.mem_cons_self _ _),
          fun he => hne (h1.trans he.symm)⟩
      · exact ⟨e1.1, List.mem_cons_self _ _, h1⟩

namespace NodeCache

theorem get_node_mk_ainsert (nodesA : List (Nat × Node))
    (icA p2iA : List (Path × Nat)) (nxt : Nat) (i : Nat) (n : Node) :
    NodeCache.get_node
      { nodes := ainsert nodesA i n, ino_cache := icA,
        path_to_ino := p2iA, next_ino := nxt } i = some n := by
  show alookup (ainsert nodesA i n) i = some n
  rw [alookup_ainsert, if_pos rfl]

theorem remove_node_some {c : NodeCache} {p : Path} {i : Nat}
    (h : alookup c.path_to_ino p = some i) :
    c.remove_node p = (some i,
      { c with path_to_ino := aerase c.path_to_ino p,
               nodes := aerase c.nodes i }) := by
  unfold remove_node
  rw [h]

theorem alloc_nodes (c : NodeCache) (p : Path) :
    (c.alloc_ino p).2.nodes = c.nodes := by
  unfold alloc_ino
  cases alookup c.ino_cache p <;> rfl

theorem alloc_path_to_ino (c : NodeCache) (p : Path) :
    (c.alloc_ino p).2.path_to_ino = c.path_to_ino := by
  unfold alloc_ino
  cases alookup c.ino_cache p <;> rfl

theorem alookup_alloc_self (c : NodeCache) (p : Path) :
    alookup (c.alloc_ino p).2.ino_cache p = some (c.alloc_ino p).1 := by
  unfold alloc_ino
  cases hl : alookup c.ino_cache p with
  | some i => exact hl
  | none =>
    show alookup (ainsert c.ino_cache p c.next_ino) p = some c.next_ino
    rw [alookup_ainsert, if_pos rfl]

theorem alloc_of_cached {c : NodeCache} {p : Path} {i : Nat}
    (h : alookup c.ino_cache p = some i) : (c.alloc_ino p).1 = i := by
  unfold alloc_ino
  rw [h]

/-- Once the allocation cache maps `p` to `i`, every NodeCache operation
preserves that entry: `alloc_ino` never overwrites an existing key, and
`insert_node` / `remove_node` do not touch `ino_cache` at all. -/
theorem ino_cache_stable (op : NCOp) (c : NodeCache) (p : Path) (i : Nat)
    (h : alookup c.ino_cache p = some i) :
    alookup (runNCOp c op).ino_cache p = some i := by
  cases op with
  | alloc q =>
    show alookup (c.alloc_ino q).2.ino_cache p = some i
    unfold alloc_ino
    cases hl : alookup c.ino_cache q with
    | some j => exact h
    | none =>
      have hqp : ¬ q = p := fun he => by
        rw [he, h] at hl
        exact Option.noConfusion hl
      show alookup (ainsert c.ino_cache q c.next_ino) p = some i
      rw [alookup_ainsert, if_neg hqp]
      exact h
  | insertN j n => exact h
  | removeN q =>
    show alookup (c.remove_node q).2.ino_cache p = some i
    unfold remove_node
    cases alookup c.path_to_ino q <;> exact h

theorem ino_cache_stable_ops (ops : List NCOp) :
    ∀ (c : NodeCache) (p : Path) (i : Nat),
      alookup c.ino_cache p = some i →
      alookup (runNCOps c ops).ino_cache p = some i := by
  induction ops with
  | nil => exact fun c p i h => h
  | cons op t ih =>
    exact fun c p i h => ih _ p i (ino_cache_stable op c p i h)

end NodeCache

theorem readSlice_within (data : Buf) (off len : Nat)
    (h : off + len ≤ data.length) :
    readSlice data off len = ReadReply.data ((data.drop off).take len) := by
  unfold readSlice
  have he : min (off + len) data.length = off + len := by omega
  have harg : off + len - off = len := by omega
  rw [he, if_pos (by omega), harg]

theorem resizeBuf_length (b : Buf) (n : Nat) :
    (GitFs.resizeBuf b n).length = n := by
  unfold GitFs.resizeBuf
  by_cases h : b.length < n
  · rw [if_pos h, List.length_append, List.length_replicate]
    omega
  · rw [if_neg h, List.length_take]
    omega

theorem resizeBuf_zeros (b : Buf) (s off len : Nat) (hoff : b.length ≤ off)
    (hlen : off + len ≤ s) :
    ((GitFs.resizeBuf b s).drop off).take len = List.replicate len 0 := by
  unfold GitFs.resizeBuf
  by_cases h : b.length < s
  · rw [if_pos h]
    have hoffeq : off = b.length + (off - b.length) := by omega
    rw [hoffeq, List.drop_append, List.drop_replicate, List.take_replicate]
    congr 1
    omega
  · rw [if_neg h]
    have hlen0 : len = 0 := by omega
    subst hlen0
    simp

theorem lookupGitWalk_nil (nc : NodeCache) (t : GitTree) (cp : Path)
    (l : Option Node) : lookupGitWalk nc t cp [] l = (l, nc) := rfl

theorem lookupGitWalk_cons_none (nc : NodeCache) (t : GitTree) (cp : Path)
    (cmp : String) (rest : List String) (l : Option Node)
    (h : alookup t cmp = none) :
    lookupGitWalk nc t cp (cmp :: rest) l = (none, nc) := by
  simp [lookupGitWalk, h]

theorem lookupGitWalk_cons_other (nc : NodeCache) (t : GitTree) (cp : Path)
    (cmp : String) (rest : List String) (l : Option Node) (fm : Nat)
    (h : alookup t cmp = some (fm, GitObj.other)) :
    lookupGitWalk nc t cp (cmp :: rest) l = (none, nc) := by
  simp [lookupGitWalk, h]

theorem lookupGitWalk_cons_blob (nc : NodeCache) (t : GitTree) (cp : Path)
    (cmp : String) (rest : List String) (l : Option Node) (fm : Nat)
    (content : Buf)
    (h : alookup t cmp = some (fm, GitObj.blob content)) :
    (lookupGitWalk nc t cp (cmp :: rest) l).1 =
      some { ino := (nc.alloc_ino (cp ++ [cmp])).1, kind := FType.RegularFile,
             size := content.length, path := cp ++ [cmp],
             git_mode := some (i32_to_filemode fm) } := by
  simp [lookupGitWalk, h]

theorem lookupGitWalk_cons_tree (nc : NodeCache) (t : GitTree) (cp : Path)
    (cmp : String) (rest : List String) (l : Option Node) (fm : Nat)
    (t2 : GitTree) (h : alookup t cmp = some (fm, GitObj.tree t2)) :
    lookupGitWalk nc t cp (cmp :: rest) l =
      lookupGitWalk
        { (nc.alloc_ino (cp ++ [cmp])).2 with
          nodes := ainsert (nc.alloc_ino (cp ++ [cmp])).2.nodes
            (nc.alloc_ino (cp ++ [cmp])).1
            { ino := (nc.alloc_ino (cp ++ [cmp])).1, kind := FType.Directory,
              size := 0, path := cp ++ [cmp],
              git_mode := some (i32_to_filemode fm) },
          path_to_ino := ainsert (nc.alloc_ino (cp ++ [cmp])).2.path_to_ino
            (cp ++ [cmp]) (nc.alloc_ino (cp ++ [cmp])).1 }
        t2 (cp ++ [cmp]) rest
        (some { ino := (nc.alloc_ino (cp ++ [cmp])).1, kind := FType.Directory,
                size := 0, path := cp ++ [cmp],
                git_mode := some (i32_to_filemode fm) }) := by
  simp [lookupGitWalk, h]

/-- The `Option Node` outcome of the git-walk branch of `lookup_path`
depends only on the tree and the component list (never on the node cache,
the path prefix, or the accumulator), for a non-empty component list. -/
theorem lookupGitWalk_none_transfer :
    ∀ (comps : List String) (t : GitTree), comps ≠ [] →
    ∀ (nc nc' : NodeCache) (cp cp' : Path) (l l' : Option Node),
      (lookupGitWalk nc t cp comps l).1 = none →
      (lookupGitWalk nc' t cp' comps l').1 = none := by
  intro comps
  induction comps with
  | nil => intro t h; exact absurd rfl h
  | cons cmp rest ih =>
    intro t _ nc nc' cp cp' l l' h
    cases halk : alookup t cmp with
    | none => rw [lookupGitWalk_cons_none _ _ _ _ _ _ halk]
    | some e =>
      obtain ⟨fm, obj⟩ := e
      cases obj with
      | other => rw [lookupGitWalk_cons_other _ _ _ _ _ _ _ halk]
      | blob content =>
        exfalso
        rw [lookupGitWalk_cons_blob _ _ _ _ _ _ _ _ halk] at h
        exact Option.noConfusion h
      | tree t2 =>
        rw [lookupGitWalk_cons_tree _ _ _ _ _ _ _ _ halk] at h ⊢
        cases rest with
        | nil =>
          exfalso
          rw [lookupGitWalk_nil] at h
          exact Option.noConfusion h
        | cons r1 r2 =>
          exact ih t2 (by simp) _ _ _ _ _ _ h


/-! ## Claim theorems -/

/-- C5 counterexample: with `max_entries = 0` (and `max_bytes = 10`) a
single insert of a 1-byte value leaves one entry in the cache, so the
entry count exceeds `max_entries`; the claim as stated (for every
`LruCache`) is false. -/
theorem C5_counterexample :
    ¬ ((((LruCache.new 10 0).insert [] [1]).current_size
          ≤ ((LruCache.new 10 0).insert [] [1]).max_size ∨
        akeys (((LruCache.new 10 0).insert [] [1]).cache) = [[]]) ∧
       (((LruCache.new 10 0).insert [] [1]).cache.length
          ≤ ((LruCache.new 10 0).insert [] [1]).max_entries)) := by
  decide

/-- C5 (amended with `1 ≤ max_entries`): for every sequence of inserts
starting from `LruCache::new max_bytes max_entries`, after each insert
either the byte counter is at most `max_bytes` or the cache holds exactly
the last-inserted entry, and the entry count never exceeds `max_entries`. -/
theorem C5_lru_insert_bounds (ms me : Nat) (hme : 1 ≤ me)
    (ops : List (Path × Buf)) (p : Path) (d : Buf) :
    (((runInserts (LruCache.new ms me) ops).insert p d).current_size ≤ ms ∨
      akeys (((runInserts (LruCache.new ms me) ops).insert p d).cache) = [p]) ∧
    ((runInserts (LruCache.new ms me) ops).insert p d).cache.length ≤ me := by
  have hrw := LruCache.runInserts_WF ops (LruCache.new ms me)
    (LruCache.WF_new ms me)
  have hb := LruCache.insert_bound p d hrw.1 (by rw [hrw.2.2]; exact hme)
  rw [hrw.2.1, hrw.2.2] at hb
  exact hb

/-- C5 witness: a concrete instance (the spec's own eviction scenario). -/
theorem C5_witness :
    (((runInserts (LruCache.new 10 100) [(["a"], [1, 1, 1, 1, 1, 1])]).insert
        ["b"] [2, 2, 2, 2, 2]).current_size ≤ 10 ∨
      akeys (((runInserts (LruCache.new 10 100)
          [(["a"], [1, 1, 1, 1, 1, 1])]).insert ["b"] [2, 2, 2, 2, 2]).cache)
        = [["b"]]) ∧
    ((runInserts (LruCache.new 10 100) [(["a"], [1, 1, 1, 1, 1, 1])]).insert
        ["b"] [2, 2, 2, 2, 2]).cache.length ≤ 100 :=
  C5_lru_insert_bounds 10 100 (by decide) [(["a"], [1, 1, 1, 1, 1, 1])]
    ["b"] [2, 2, 2, 2, 2]

/-- C6: for every insert/remove interleaving starting from `LruCache::new`,
the byte counter equals the sum of the stored value lengths. -/
theorem C6_lru_bytes_eq_sum (ms me : Nat) (ops : List LruOp) :
    (runLruOps (LruCache.new ms me) ops).current_size
      = sumBytes (runLruOps (LruCache.new ms me) ops).cache :=
  (LruCache.runLruOps_WF ops (LruCache.new ms me)
    (LruCache.WF_new ms me)).size_eq

/-- C7 counterexample: with a single fitting key k₁ = "a", `get "a"` hits,
and the next insert evicts exactly one element — but that element is "a"
itself, which is then absent; the claim (for n = 1) is false. -/
theorem C7_counterexample :
    (((LruCache.new 10 100).insert ["a"] [1, 1, 1, 1, 1, 1]).current_size
        ≤ ((LruCache.new 10 100).insert ["a"] [1, 1, 1, 1, 1, 1]).max_size) ∧
    ((((LruCache.new 10 100).insert ["a"] [1, 1, 1, 1, 1, 1]).get
        ["a"]).isSome) ∧
    ((((LruCache.new 10 100).insert ["a"] [1, 1, 1, 1, 1, 1]).getS
        ["a"]).insertOp ["b"] [2, 2, 2, 2, 2]).2 = [["a"]] ∧
    alookup (((((LruCache.new 10 100).insert ["a"] [1, 1, 1, 1, 1, 1]).getS
        ["a"]).insertOp ["b"] [2, 2, 2, 2, 2]).1).cache ["a"] = none := by
  decide

/-- C7 (amended: at least two entries present and the subsequently inserted
key fresh): after `get k₁` promotes `k₁` to the front, an insert of a new
key that evicts exactly one element evicts a key other than `k₁`, and `k₁`
remains in the cache. -/
theorem C7_get_promotes (c : LruCache) (k1 p : Path) (d : Buf)
    (hwf : LruCache.WF c) (hk : k1 ∈ akeys c.cache)
    (hlen : 2 ≤ c.cache.length) (hp : p ∉ akeys c.cache) :
    ((c.getS k1).insertOp p d).2.length = 1 →
    k1 ∉ ((c.getS k1).insertOp p d).2 ∧
      (alookup (((c.getS k1).insertOp p d).1).cache k1).isSome := by
  intro hev
  obtain ⟨v, hv⟩ := Option.isSome_iff_exists.mp (alookup_isSome_iff.mpr hk)
  have hwf1 : LruCache.WF (c.getS k1) := LruCache.WF_getS k1 hwf
  have hcache1 : (c.getS k1).cache = c.cache := LruCache.getS_cache c k1
  have horder : (c.getS k1).access_order = k1 :: lerase c.access_order k1 := by
    show (c.getOp k1).2.access_order = _
    unfold LruCache.getOp
    rw [hv]
  have hpl : alookup (c.getS k1).cache p = none := by
    rw [hcache1]
    exact alookup_eq_none.mpr hp
  have hevicted : ((c.getS k1).insertOp p d).2 =
      (LruCache.evictLoop (c.getS k1) d.length).2 := by
    rw [LruCache.insert_evicted, LruCache.removeS_of_none hpl]
  have hk1o : k1 ∈ c.access_order := hwf.keys_sub k1 hk
  obtain ⟨k2, hk2m, hk2ne⟩ := exists_ne_key_of_two_le hwf.nodupKeys hlen k1
  have hk2o : k2 ∈ c.access_order := hwf.keys_sub k2 hk2m
  have h2len : 2 ≤ c.access_order.length :=
    two_le_length_of_mem_ne hk2o hk1o hk2ne
  have hlerase : c.access_order.length = (lerase c.access_order k1).length + 1 :=
    length_lerase hk1o
  have h2len1 : 2 ≤ (c.getS k1).access_order.length := by
    rw [horder, List.length_cons]
    omega
  have hhead : (c.getS k1).access_order.head? = some k1 := by
    rw [horder]; rfl
  have hev2 : (LruCache.evictLoop (c.getS k1) d.length).2.length = 1 := by
    rw [← hevicted]; exact hev
  unfold LruCache.evictLoop at hev2
  have hnot : k1 ∉ (LruCache.evictLoopAux (c.getS k1).access_order.length
      (c.getS k1) d.length).2 := by
    refine LruCache.evictLoopAux_head_not_evicted d.length k1 _ _ hwf1 hhead ?_
    rw [hev2]
    omega
  constructor
  · rw [hevicted]
    unfold LruCache.evictLoop
    exact hnot
  · have hk1p : k1 ≠ p := fun he => hp (he ▸ hk)
    show (alookup ((c.getS k1).insert p d).cache k1).isSome
    rw [LruCache.insert_cache, LruCache.removeS_of_none hpl, alookup_cons,
      if_neg (fun he => hk1p he.symm)]
    unfold LruCache.evictLoop
    rw [LruCache.evictLoopAux_alookup_not_evicted d.length k1 _ _ hnot,
      hcache1, hv]
    rfl

/-- C7 witness: two fitting keys, get the older one, insert a fresh key
that evicts exactly one entry — the evicted key is not the promoted one. -/
theorem C7_witness :
    ["a"] ∉ (((((LruCache.new 10 100).insert ["a"] [1, 1, 1]).insert
        ["b"] [2, 2, 2]).getS ["a"]).insertOp ["z"] [9, 9, 9, 9, 9, 9, 9]).2 ∧
    (alookup ((((((LruCache.new 10 100).insert ["a"] [1, 1, 1]).insert
        ["b"] [2, 2, 2]).getS ["a"]).insertOp
        ["z"] [9, 9, 9, 9, 9, 9, 9]).1).cache ["a"]).isSome := by
  have h := C7_get_promotes
    (((LruCache.new 10 100).insert ["a"] [1, 1, 1]).insert ["b"] [2, 2, 2])
    ["a"] ["z"] [9, 9, 9, 9, 9, 9, 9]
    ⟨by decide, by decide, by decide, by decide, by decide⟩
    (by decide) (by decide) (by decide) (by decide)
  exact h

/-- C8: once `alloc_ino p` has returned `i`, every later `alloc_ino p`
returns `i` again, across any interleaving of alloc/insert/remove
operations; and `remove_node` deletes the `path_to_ino` entry and the
`nodes` entry but leaves `ino_cache` untouched. -/
theorem C8_alloc_ino_stable (c : NodeCache) (p : Path) (ops : List NCOp) :
    ((runNCOps (c.alloc_ino p).2 ops).alloc_ino p).1 = (c.alloc_ino p).1 ∧
    (c.remove_node p).2.ino_cache = c.ino_cache ∧
    alookup ((c.remove_node p).2.path_to_ino) p = none ∧
    Option.elim (c.remove_node p).1 True
      (fun i => (c.remove_node p).2.get_node i = none) := by
  refine ⟨?_, ?_, ?_, ?_⟩
  · exact NodeCache.alloc_of_cached
      (NodeCache.ino_cache_stable_ops ops _ p _ (NodeCache.alookup_alloc_self c p))
  · unfold NodeCache.remove_node
    cases alookup c.path_to_ino p <;> rfl
  · unfold NodeCache.remove_node
    cases hl : alookup c.path_to_ino p with
    | none => exact hl
    | some i => exact alookup_aerase_self _ _
  · unfold NodeCache.remove_node
    cases hl : alookup c.path_to_ino p with
    | none => trivial
    | some i =>
      show NodeCache.get_node _ i = none
      unfold NodeCache.get_node
      exact alookup_aerase_self _ _

/-- C1 (code bug): with a zero-length backing buffer in the overlay, a read
at offset 1 takes the slice `&data[1..0]` (`end = min(off + size, len) = 0 <
off`), which panics in Rust instead of producing the truncated, zero-length
reply the claim requires. -/
theorem C1_read_past_end_panics :
    (read_file
      { ino := 2, kind := FType.RegularFile, size := 0, path := ["a"],
        git_mode := none }
      1 1 ((LruCache.new 100 100).insert ["a"] []) []).1 = ReadReply.panic := by
  decide

/-- Concrete state for the C2 theorems: a cached node of size 8 whose path
holds no overlay entry. -/
def fsC2 : GitFs :=
  { root := [],
    node_cache := NodeCache.new.insert_node 2
      { ino := 2, kind := FType.RegularFile, size := 8, path := ["a"],
        git_mode := none },
    overlay := LruCache.new 100 100 }

/-- C2 counterexample: inode 2 is present in the node cache with size 8;
after `setattr(2, size = 5)`, `getattr(2)` still reports size 8, not 5 —
`setattr` resizes only the overlay buffer and never updates the node. -/
theorem C2_counterexample :
    (fsC2.node_cache.get_node 2).isSome ∧
    ¬ ((((fsC2.setattrSize 2 5).2).getattr 2).map FileAttr.size = some 5) := by
  decide

/-- C2 (amended): `setattr(ino, size = s)` resizes the overlay buffer to
`s` with zero padding, so subsequent reads at offsets between the original
overlay content length and `s` return zero bytes; but `getattr(ino)`
returns the node's stored size, which `setattr` leaves unchanged. -/
theorem C2_setattr_resizes (fs : GitFs) (ino s : Nat) (n : Node)
    (h : fs.node_cache.get_node ino = some n) :
    ((((fs.setattrSize ino s).2).getattr ino).map FileAttr.size = some n.size) ∧
    (∀ off len, ((fs.overlay.get n.path).getD []).length ≤ off →
      off + len ≤ s →
      ((((fs.setattrSize ino s).2).read ino off len).1 =
        ReadReply.data (List.replicate len 0))) := by
  have hstate : (fs.setattrSize ino s).2 =
      { fs with overlay :=
          ((fs.overlay.getOp n.path).2.insert n.path
            (GitFs.resizeBuf (((fs.overlay.getOp n.path).1).getD []) s)) } := by
    unfold GitFs.setattrSize
    rw [h]
  constructor
  · rw [hstate]
    show ((fs.node_cache.get_node ino).map node_to_attr).map FileAttr.size
      = some n.size
    rw [h]
    rfl
  · intro off len hoff hlen
    rw [hstate]
    set b0 := ((fs.overlay.getOp n.path).1).getD [] with hb0
    simp only [GitFs.read, h, read_file, LruCache.getOp,
      LruCache.alookup_insert_self]
    rw [readSlice_within _ _ _ (by rw [resizeBuf_length]; exact hlen)]
    have hoff2 : b0.length ≤ off := hoff
    rw [resizeBuf_zeros _ _ _ _ hoff2 hlen]

/-- C2 witness: setattr to size 5 on the size-8 node; getattr reports 8 and
a read of the first five bytes returns five zero bytes. -/
theorem C2_witness :
    ((((fsC2.setattrSize 2 5).2).getattr 2).map FileAttr.size = some 8) ∧
    ((((fsC2.setattrSize 2 5).2).read 2 0 5).1 =
      ReadReply.data (List.replicate 5 0)) := by
  have h := C2_setattr_resizes fsC2 2 5
    { ino := 2, kind := FType.RegularFile, size := 8, path := ["a"],
      git_mode := none }
    (by decide)
  exact ⟨h.1, h.2 0 5 (by decide) (by decide)⟩

/-- C10: when both parent inodes are known but the composed old path is in
neither the overlay nor the node cache, `rename` replies OK and leaves the
overlay and the node cache unchanged. -/
theorem C10_rename_missing_noop (fs : GitFs) (parent newparent : Nat)
    (name newname : String) (pn npn : Node)
    (hp : fs.node_cache.get_node parent = some pn)
    (hnp : fs.node_cache.get_node newparent = some npn)
    (hov : alookup fs.overlay.cache (pn.path ++ [name]) = none)
    (hnc : alookup fs.node_cache.path_to_ino (pn.path ++ [name]) = none) :
    (fs.rename parent name newparent newname).1 = true ∧
    (fs.rename parent name newparent newname).2.overlay = fs.overlay ∧
    (fs.rename parent name newparent newname).2.node_cache = fs.node_cache := by
  unfold GitFs.rename
  rw [hp, hnp]
  simp only [LruCache.removeOp, hov, NodeCache.remove_node, hnc]
  exact ⟨trivial, trivial, trivial⟩

/-- C10 witness: renaming a nonexistent name directly under the root. -/
theorem C10_witness :
    (GitFs.rename
      { root := [], node_cache := NodeCache.new,
        overlay := LruCache.new 100 100 } 1 "x" 1 "y").1 = true ∧
    (GitFs.rename
      { root := [], node_cache := NodeCache.new,
        overlay := LruCache.new 100 100 } 1 "x" 1 "y").2.overlay
      = LruCache.new 100 100 ∧
    (GitFs.rename
      { root := [], node_cache := NodeCache.new,
        overlay := LruCache.new 100 100 } 1 "x" 1 "y").2.node_cache
      = NodeCache.new := by
  have h := C10_rename_missing_noop
    { root := [], node_cache := NodeCache.new, overlay := LruCache.new 100 100 }
    1 1 "x" "y"
    { ino := ROOT_INO, kind := FType.Directory, size := 0, path := [],
      git_mode := some GitMode.Tree }
    { ino := ROOT_INO, kind := FType.Directory, size := 0, path := [],
      git_mode := some GitMode.Tree }
    (by decide) (by decide) (by decide) (by decide)
  exact h

/-- C9: after `mkdir(parent, name)` and `rmdir(parent, name)`, the overlay
still holds the empty presence marker (rmdir removes only the node-cache
entry), so a lookup of the same path does not fail with ENOENT: the overlay
branch of `lookup_path` materializes a RegularFile node of size 0. -/
theorem C9_mkdir_rmdir_lookup (fs : GitFs) (parent : Nat) (name : String)
    (pn : Node) (hp : fs.node_cache.get_node parent = some pn)
    (hino : (fs.node_cache.alloc_ino (pn.path ++ [name])).1 ≠ parent) :
    ((fs.mkdir parent name).2.rmdir parent name).1 = true ∧
    ((((fs.mkdir parent name).2.rmdir parent name).2.lookup parent name).1.map
      (fun nd => (nd.kind, nd.size))) = some (FType.RegularFile, 0) := by
  have hmk : (fs.mkdir parent name).2 =
      { fs with
        node_cache := ((fs.node_cache.alloc_ino (pn.path ++ [name])).2).insert_node
          ((fs.node_cache.alloc_ino (pn.path ++ [name])).1)
          { ino := (fs.node_cache.alloc_ino (pn.path ++ [name])).1,
            kind := FType.Directory, size := 0, path := pn.path ++ [name],
            git_mode := some GitMode.Tree },
        overlay := fs.overlay.insert (pn.path ++ [name]) [] } := by
    unfold GitFs.mkdir
    rw [hp]
  have hp2 : ((fs.mkdir parent name).2).node_cache.get_node parent = some pn := by
    rw [hmk]
    show alookup (ainsert ((fs.node_cache.alloc_ino (pn.path ++ [name])).2).nodes
      ((fs.node_cache.alloc_ino (pn.path ++ [name])).1)
      { ino := (fs.node_cache.alloc_ino (pn.path ++ [name])).1,
        kind := FType.Directory, size := 0, path := pn.path ++ [name],
        git_mode := some GitMode.Tree }) parent = some pn
    rw [alookup_ainsert, if_neg hino, NodeCache.alloc_nodes]
    exact hp
  have hrm : ((fs.mkdir parent name).2.rmdir parent name) =
      (true, { (fs.mkdir parent name).2 with
        node_cache := (((fs.mkdir parent name).2).node_cache.remove_node
          (pn.path ++ [name])).2 }) := by
    unfold GitFs.rmdir
    rw [hp2]
  have hptoi : alookup (((fs.mkdir parent name).2).node_cache.path_to_ino)
      (pn.path ++ [name])
      = some ((fs.node_cache.alloc_ino (pn.path ++ [name])).1) := by
    rw [hmk]
    show alookup
      (ainsert ((fs.node_cache.alloc_ino (pn.path ++ [name])).2).path_to_ino
        (pn.path ++ [name]) ((fs.node_cache.alloc_ino (pn.path ++ [name])).1))
      (pn.path ++ [name]) = _
    rw [alookup_ainsert, if_pos rfl]
  have hrn : (((fs.mkdir parent name).2).node_cache.remove_node
      (pn.path ++ [name])).2 =
      { ((fs.mkdir parent name).2).node_cache with
        path_to_ino := aerase (((fs.mkdir parent name).2).node_cache.path_to_ino)
          (pn.path ++ [name]),
        nodes := aerase (((fs.mkdir parent name).2).node_cache.nodes)
          ((fs.node_cache.alloc_ino (pn.path ++ [name])).1) } := by
    unfold NodeCache.remove_node
    rw [hptoi]
  have hA : (((fs.mkdir parent name).2.rmdir parent name).2).node_cache.get_node
      parent = some pn := by
    rw [hrm]
    show NodeCache.get_node
      ((((fs.mkdir parent name).2).node_cache.remove_node (pn.path ++ [name])).2)
      parent = some pn
    rw [hrn]
    show alookup (aerase (((fs.mkdir parent name).2).node_cache.nodes)
      ((fs.node_cache.alloc_ino (pn.path ++ [name])).1)) parent = some pn
    rw [alookup_aerase_ne _ (fun he => hino he.symm)]
    exact hp2
  have hB : alookup
      ((((fs.mkdir parent name).2.rmdir parent name).2).node_cache.path_to_ino)
      (pn.path ++ [name]) = none := by
    rw [hrm]
    show alookup
      ((((fs.mkdir parent name).2).node_cache.remove_node
        (pn.path ++ [name])).2.path_to_ino) (pn.path ++ [name]) = none
    rw [hrn]
    exact alookup_aerase_self _ _
  have hC : alookup
      ((((fs.mkdir parent name).2.rmdir parent name).2).overlay.cache)
      (pn.path ++ [name]) = some [] := by
    rw [hrm]
    show alookup (((fs.mkdir parent name).2).overlay.cache) (pn.path ++ [name])
      = some []
    rw [hmk]
    exact LruCache.alookup_insert_self _ _ _
  refine ⟨by rw [hrm], ?_⟩
  unfold GitFs.lookup
  rw [hA]
  dsimp only
  unfold NodeCache.lookup_path
  rw [hB]
  dsimp only
  unfold LruCache.getOp
  rw [hC]
  rfl

/-- C9 witness: mkdir then rmdir of "d" under the root of a fresh mount. -/
theorem C9_witness :
    ((GitFs.mkdir
        { root := [], node_cache := NodeCache.new,
          overlay := LruCache.new 100 100 } 1 "d").2.rmdir 1 "d").1 = true ∧
    (((GitFs.mkdir
        { root := [], node_cache := NodeCache.new,
          overlay := LruCache.new 100 100 } 1 "d").2.rmdir 1 "d").2.lookup
        1 "d").1.map (fun nd => (nd.kind, nd.size))
      = some (FType.RegularFile, 0) := by
  have h := C9_mkdir_rmdir_lookup
    { root := [], node_cache := NodeCache.new, overlay := LruCache.new 100 100 }
    1 "d"
    { ino := ROOT_INO, kind := FType.Directory, size := 0, path := [],
      git_mode := some GitMode.Tree }
    (by decide) (by decide)
  exact h

/-- C4: a first write at offset 0 to a path absent from the overlay seeds
the overlay with the original blob from HEAD before patching, so a
subsequent full read returns the written prefix followed by the preserved
suffix of the original content. -/
theorem C4_cow_preserves_suffix (nc : NodeCache) (overlay : LruCache)
    (root : GitTree) (ino : Nat) (file : Node) (d b : Buf) (nm : String)
    (fm : Nat)
    (h1 : nc.get_node ino = some file)
    (h2 : alookup overlay.cache file.path = none)
    (h3 : file.path.getLast? = some nm)
    (h4 : alookup (seedWalk root file.path.dropLast) nm
      = some (fm, GitObj.blob b))
    (h5 : d.length ≤ b.length) :
    (write_file ino 0 d nc overlay root).1 = WriteReply.written d.length ∧
    (read_file file 0 b.length (write_file ino 0 d nc overlay root).2
      root).1 = ReadReply.data (d ++ b.drop d.length) := by
  have hck : overlay.contains_key file.path = false := by
    unfold LruCache.contains_key
    rw [h2]
    rfl
  have hcond : ¬ overlay.contains_key file.path = true ∧ (0 : Nat) = 0 :=
    ⟨by rw [hck]; simp, rfl⟩
  have hno : ¬ (b.length < 0 + d.length) := by omega
  have hw : write_file ino 0 d nc overlay root =
      (WriteReply.written d.length,
        ((overlay.insert file.path b).getOp file.path).2.insert file.path
          (b.take 0 ++ d ++ b.drop (0 + d.length))) := by
    unfold write_file
    rw [h1]
    dsimp only
    rw [if_pos hcond]
    rw [h3]
    dsimp only
    rw [h4]
    dsimp only
    simp only [LruCache.getOp_insert_self]
    simp only [Option.getD_some]
    rw [if_neg hno]
  have hcont : (b.take 0 ++ d ++ b.drop (0 + d.length)) = d ++ b.drop d.length := by
    simp
  constructor
  · rw [hw]
  · rw [hw]
    dsimp only
    unfold read_file
    simp only [LruCache.getOp_insert_self]
    have hlen2 : (b.take 0 ++ d ++ b.drop (0 + d.length)).length = b.length := by
      rw [hcont]
      simp only [List.length_append, List.length_drop]
      omega
    rw [readSlice_within _ _ _ (by rw [hlen2]; omega)]
    rw [List.drop_zero, ← hlen2, List.take_length, hcont]

/-- C4 witness: the spec's own scenario, HEAD has a.txt = "ORIGINAL",
write "X" at offset 0, full read returns "XRIGINAL" (ASCII bytes). -/
theorem C4_witness :
    (write_file 2 0 [88]
      (NodeCache.new.insert_node 2
        { ino := 2, kind := FType.RegularFile, size := 8, path := ["a.txt"],
          git_mode := some GitMode.Blob })
      (LruCache.new 100 100)
      [("a.txt", (0o100644, GitObj.blob [79, 82, 73, 71, 73, 78, 65, 76]))]).1
      = WriteReply.written 1 ∧
    (read_file
      { ino := 2, kind := FType.RegularFile, size := 8, path := ["a.txt"],
        git_mode := some GitMode.Blob }
      0 8
      (write_file 2 0 [88]
        (NodeCache.new.insert_node 2
          { ino := 2, kind := FType.RegularFile, size := 8, path := ["a.txt"],
            git_mode := some GitMode.Blob })
        (LruCache.new 100 100)
        [("a.txt", (0o100644, GitObj.blob [79, 82, 73, 71, 73, 78, 65, 76]))]).2
      [("a.txt", (0o100644, GitObj.blob [79, 82, 73, 71, 73, 78, 65, 76]))]).1
      = ReadReply.data [88, 82, 73, 71, 73, 78, 65, 76] := by
  have h := C4_cow_preserves_suffix
    (NodeCache.new.insert_node 2
      { ino := 2, kind := FType.RegularFile, size := 8, path := ["a.txt"],
        git_mode := some GitMode.Blob })
    (LruCache.new 100 100)
    [("a.txt", (0o100644, GitObj.blob [79, 82, 73, 71, 73, 78, 65, 76]))]
    2
    { ino := 2, kind := FType.RegularFile, size := 8, path := ["a.txt"],
      git_mode := some GitMode.Blob }
    [88] [79, 82, 73, 71, 73, 78, 65, 76] "a.txt" 0o100644
    (by decide) (by decide) (by decide) (by rfl) (by decide)
  exact ⟨h.1, h.2⟩

/-- C3 counterexample: a file that exists only in HEAD is looked up (so its
parent inodes are known) and renamed; afterwards a lookup of the new path
yields ENOENT while the old path still resolves — both halves of the claim
fail.  `rename` loses the node because `remove_node` deletes the `nodes`
entry before `get_node` re-reads it, and the git tree still serves the old
path. -/
theorem C3_counterexample :
    ((((GitFs.lookup
        { root := [("old.txt", (0o100644, GitObj.blob [72, 73]))],
          node_cache := NodeCache.new,
          overlay := LruCache.new 100 100 } 1 "old.txt").2.rename
        1 "old.txt" 1 "new.txt").2.lookup 1 "new.txt").1 = none) ∧
    ((((GitFs.lookup
        { root := [("old.txt", (0o100644, GitObj.blob [72, 73]))],
          node_cache := NodeCache.new,
          overlay := LruCache.new 100 100 } 1 "old.txt").2.rename
        1 "old.txt" 1 "new.txt").2.lookup 1 "old.txt").1 ≠ none) := by
  decide

/-- C3 (amended): when the old path's content lives in the overlay, the old
path does not resolve in HEAD, the old path has a node-cache entry (for an
inode that is neither parent), the new path is fresh in the node cache, and
the two composed paths differ, then after `rename` a lookup of the new path
materializes a node whose read returns the old content, and a lookup of the
old path yields ENOENT. -/
theorem C3_rename_overlay (fs : GitFs) (parent newparent : Nat)
    (name newname : String) (pn npn : Node) (buf : Buf) (iold : Nat)
    (hp : fs.node_cache.get_node parent = some pn)
    (hnp : fs.node_cache.get_node newparent = some npn)
    (hov : alookup fs.overlay.cache (pn.path ++ [name]) = some buf)
    (hio : alookup fs.node_cache.path_to_ino (pn.path ++ [name]) = some iold)
    (hnew : alookup fs.node_cache.path_to_ino (npn.path ++ [newname]) = none)
    (hneq : pn.path ++ [name] ≠ npn.path ++ [newname])
    (hipar : iold ≠ parent) (hinpar : iold ≠ newparent)
    (hgit : (lookupGitWalk NodeCache.new fs.root [] (pn.path ++ [name])
      none).1 = none) :
    (fs.rename parent name newparent newname).1 = true ∧
    (((fs.rename parent name newparent newname).2.lookup parent name).1
      = none) ∧
    ((((fs.rename parent name newparent newname).2.lookup newparent
        newname).1).map (fun nd =>
      ((((fs.rename parent name newparent newname).2.lookup newparent
        newname).2).read nd.ino 0 buf.length).1)
      = some (ReadReply.data buf)) := by
  have hgn : NodeCache.get_node
      { fs.node_cache with
        path_to_ino := aerase fs.node_cache.path_to_ino (pn.path ++ [name]),
        nodes := aerase fs.node_cache.nodes iold } iold = none :=
    alookup_aerase_self _ _
  have hren : fs.rename parent name newparent newname =
      (true, { fs with
        overlay := ((fs.overlay.removeOp (pn.path ++ [name])).2).insert
          (npn.path ++ [newname]) buf,
        node_cache := (fs.node_cache.remove_node (pn.path ++ [name])).2 }) := by
    unfold GitFs.rename
    rw [hp, hnp]
    dsimp only
    rw [LruCache.removeOp_some hov]
    dsimp only
    rw [NodeCache.remove_node_some hio]
    dsimp only
    rw [hgn]
  have hgp : NodeCache.get_node
      ((fs.node_cache.remove_node (pn.path ++ [name])).2) parent
      = some pn := by
    rw [NodeCache.remove_node_some hio]
    show alookup (aerase fs.node_cache.nodes iold) parent = some pn
    rw [alookup_aerase_ne _ (fun he => hipar he.symm)]
    exact hp
  have hgnp : NodeCache.get_node
      ((fs.node_cache.remove_node (pn.path ++ [name])).2) newparent
      = some npn := by
    rw [NodeCache.remove_node_some hio]
    show alookup (aerase fs.node_cache.nodes iold) newparent = some npn
    rw [alookup_aerase_ne _ (fun he => hinpar he.symm)]
    exact hnp
  have hb1 : alookup
      (((fs.node_cache.remove_node (pn.path ++ [name])).2).path_to_ino)
      (pn.path ++ [name]) = none := by
    rw [NodeCache.remove_node_some hio]
    exact alookup_aerase_self _ _
  have hb4 : alookup
      (((fs.node_cache.remove_node (pn.path ++ [name])).2).path_to_ino)
      (npn.path ++ [newname]) = none := by
    rw [NodeCache.remove_node_some hio]
    show alookup (aerase fs.node_cache.path_to_ino (pn.path ++ [name]))
      (npn.path ++ [newname]) = none
    rw [alookup_aerase_ne _ (fun he => hneq he.symm)]
    exact hnew
  have hb2 : alookup
      ((((fs.overlay.removeOp (pn.path ++ [name])).2).insert
        (npn.path ++ [newname]) buf).cache) (pn.path ++ [name]) = none :=
    LruCache.alookup_insert_none buf hneq
      (LruCache.alookup_removeS_self fs.overlay (pn.path ++ [name]))
  refine ⟨by rw [hren], ?_, ?_⟩
  · rw [hren]
    dsimp only
    unfold GitFs.lookup
    rw [hgp]
    dsimp only
    unfold NodeCache.lookup_path
    rw [hb1]
    dsimp only
    unfold LruCache.getOp
    rw [hb2]
    dsimp only
    exact lookupGitWalk_none_transfer (pn.path ++ [name]) fs.root (by simp)
      NodeCache.new _ [] [] none none hgit
  · rw [hren]
    dsimp only
    unfold GitFs.lookup
    rw [hgnp]
    dsimp only
    unfold NodeCache.lookup_path
    rw [hb4]
    dsimp only
    simp only [LruCache.getOp_insert_self]
    unfold GitFs.read
    simp only [Option.map_some']
    rw [NodeCache.get_node_mk_ainsert]
    dsimp only
    unfold read_file
    unfold LruCache.getOp
    rw [LruCache.alookup_insert_self]
    dsimp only
    rw [readSlice_within _ _ _ (by omega)]
    rw [List.drop_zero, List.take_length]

/-- Concrete state for the C3 witness: an overlay-backed file "old" under
the root (absent from HEAD), with its node-cache entry at inode 2. -/
def fsC3 : GitFs :=
  { root := [],
    node_cache := NodeCache.new.insert_node 2
      { ino := 2, kind := FType.RegularFile, size := 2, path := ["old"],
        git_mode := none },
    overlay := (LruCache.new 100 100).insert ["old"] [72, 73] }

/-- C3 witness: renaming the overlay-backed "old" to "new" moves the bytes;
the new path reads them back and the old path is ENOENT. -/
theorem C3_witness :
    (fsC3.rename 1 "old" 1 "new").1 = true ∧
    (((fsC3.rename 1 "old" 1 "new").2.lookup 1 "old").1 = none) ∧
    ((((fsC3.rename 1 "old" 1 "new").2.lookup 1 "new").1).map (fun nd =>
      ((((fsC3.rename 1 "old" 1 "new").2.lookup 1 "new").2).read nd.ino 0
        (List.length [72, 73])).1) = some (ReadReply.data [72, 73])) := by
  have h := C3_rename_overlay fsC3 1 1 "old" "new"
    { ino := ROOT_INO, kind := FType.Directory, size := 0, path := [],
      git_mode := some GitMode.Tree }
    { ino := ROOT_INO, kind := FType.Directory, size := 0, path := [],
      git_mode := some GitMode.Tree }
    [72, 73] 2
    (by decide) (by decide) (by decide) (by decide) (by decide) (by decide)
    (by decide) (by decide) (by decide)
  exact ⟨h.1, h.2.1, h.2.2⟩

end FuseOverlay
